import Mathlib

/-!
# Alembic importer session (`Source/abci/Importer/aiContext.cpp`)

A shallow embedding of `aiContext` (the importer session) and of the helpers of
`aiContext.cpp`, followed by theorems about them.

Modelling conventions.

* The C++ object `aiContext` is the record `aiContext`; every member function
  is a function from the record before the call to the record after it,
  together with the list of effects (`Event`) the call performed, in program
  order.  `load` additionally yields how the call ended (`Outcome`):
  it returned a boolean, or a C++ exception left the function.
* A path that is valid UTF-8 is the `String` of its decoded characters, so the
  UTF-8/UTF-16 conversions `L` and `S` keep that sequence.  `CString` adds the
  other `const char*` arguments: the null pointer, and bytes that are not valid
  UTF-8, on which `from_bytes` in `L` raises `std::range_error`.
* `Abc::IArchive` is a handle; the invalid (default constructed or reset)
  handle is `none`.  A reader either hands out an archive or raises
  `Alembic::Util::Exception` (`Except.error` with the message).
* Pointers to objects owned elsewhere (`aiAsync*`, `Abc::TimeSamplingPtr`) are
  addresses.
* The static registry `aiContextManager::s_instance` is passed explicitly; its
  `std::map` is the list of its entries, with strictly ascending keys.
* Types and helpers that are declared outside `aiContext.cpp`
  (`aiConfig`, `aiTimeSampling`, `aiCreateTimeSampling`,
  `aiTimeToSampleSelector`, `aiObject::updateSample`) are parameters.
* `DebugLog`/`DebugLogW` diagnostics are not part of the model, element counts
  stay far below the range of `int`, and of the archive calls only the two
  readers, `getNumChildren` and `getChild` may raise.
-/

/-! ## Platform and paths -/

/-- The build variant: `windows` is the variant with `_WIN32`/`WIN32` defined,
`linux` the one with `__linux__`, `other` the remaining one. -/
inductive Platform where
  | windows
  | linux
  | other
  deriving DecidableEq, Repr

/-- The conversion `L`: UTF-8 bytes to wide characters (the decoded character sequence). -/
def L (s : String) : List Char := s.data

/-- The conversion `S`: wide characters back to UTF-8. -/
def S (w : List Char) : String := String.mk w

/-- One step of the `_WIN32` loop of `NormalizePath` on the character `c`. -/
def normalizeChar (c : Char) : Char :=
  if c = '\\' then '/'
  else if 'A' ≤ c ∧ c ≤ 'Z' then Char.ofNat ('a'.toNat + (c.toNat - 'A'.toNat))
  else c

/-- The function `NormalizePath(in_path)`; `none` is the null pointer. -/
def NormalizePath (plat : Platform) (in_path : Option String) : String :=
  match in_path with
  | none => S []
  | some p =>
    match plat with
    | Platform.windows => S ((L p).map normalizeChar)
    | _ => S (L p)

/-! ## Collaborators -/

/-- An archive object (`abcObject`, i.e. `Abc::IObject`): its name, whether
`getNumChildren()` raises, and its child slots in native order; a slot `none`
is a child for which `getChild(i)` raises. -/
inductive abcObject where
  | mk (name : String) (numChildrenFails : Bool) (slots : List (Option abcObject))

/-- Address of a `Abc::TimeSampling` (`Abc::TimeSamplingPtr` compares by identity). -/
abbrev TimeSamplingPtr := Nat

/-- A valid `Abc::IArchive`: the top object and the archive's time samplings. -/
structure IArchive where
  top : abcObject
  timeSamplings : List TimeSamplingPtr

/-- The member `IArchive::getTop`. -/
def IArchive.getTop (a : IArchive) : abcObject := a.top

/-- The member `IArchive::getNumTimeSamplings`. -/
def IArchive.getNumTimeSamplings (a : IArchive) : Nat := a.timeSamplings.length

/-- A heap allocated input stream (`std::ifstream` / `lockFreeIStream`) bound to a file name. -/
structure ifstream where
  name : String
  deriving DecidableEq, Repr

/-- Address of a pending `aiAsync` task. -/
structure aiAsync where
  addr : Nat
  deriving DecidableEq, Repr

/-- A tree node (`aiObject`): the archive object it wraps and the children it owns. -/
inductive aiObject where
  | mk (abc : abcObject) (children : List aiObject)

/-- The member `aiObject::getAbcObject`. -/
def aiObject.getAbcObject : aiObject → abcObject
  | aiObject.mk abc _ => abc

/-- The children owned by a node. -/
def aiObject.getChildren : aiObject → List aiObject
  | aiObject.mk _ cs => cs

/-- The two archive readers: `AbcCoreOgawa::ReadArchive(m_streams)(m_path)` and
`Abc::IArchive(AbcCoreHDF5::ReadArchive(), path)`. -/
structure ArchiveReaders where
  ogawa : List ifstream → String → Except String IArchive
  hdf5 : String → Except String IArchive

/-- Effects of the member functions, in program order. -/
inductive Event where
  | wait (task : aiAsync)
  | resetTopNode
  | clearTimeSamplings
  | resetArchive
  | clearPath
  | deleteStream (s : ifstream)
  | newStream (s : ifstream)
  | readOgawa (streams : List ifstream) (path : String)
  | readHDF5 (path : String)
  | newObject (abc : abcObject)
  | updateSample (node : aiObject)
  | queueAsync (task : aiAsync)
  | queue (tasks : List aiAsync)

/-- How a call ended: it returned `b`, or an exception left it. -/
inductive Outcome where
  | returned (b : Bool)
  | raised
  deriving DecidableEq, Repr

/-! ## The session -/

/-- The data members of `aiContext`. -/
structure aiContext (Config TS : Type) where
  m_uid : Int
  m_path : String
  m_archive : Option IArchive
  m_streams : List ifstream
  m_top_node : Option aiObject
  m_timesamplings : List TS
  m_async_tasks : List aiAsync
  m_config : Config

/-- Result of `aiContext::load`. -/
structure LoadResult (Config TS : Type) where
  out : Outcome
  ctx : aiContext Config TS
  trace : List Event

namespace aiContext

variable {Config TS : Type}

/-- The constructor `aiContext::aiContext(uid)`; `config` is the default constructed `aiConfig`. -/
def new (config : Config) (uid : Int) : aiContext Config TS :=
  { m_uid := uid, m_path := "", m_archive := none, m_streams := [], m_top_node := none,
    m_timesamplings := [], m_async_tasks := [], m_config := config }

/-- The member `aiContext::getPath`. -/
def getPath (ctx : aiContext Config TS) : String := ctx.m_path

/-- The member `aiContext::getArchive`. -/
def getArchive (ctx : aiContext Config TS) : Option IArchive := ctx.m_archive

/-- The member `aiContext::getTopObject`. -/
def getTopObject (ctx : aiContext Config TS) : Option aiObject := ctx.m_top_node

/-- The member `aiContext::getTimeSamplingCount`. -/
def getTimeSamplingCount (ctx : aiContext Config TS) : Nat := ctx.m_timesamplings.length

/-- The member `aiContext::getUid`. -/
def getUid (ctx : aiContext Config TS) : Int := ctx.m_uid

/-- The member `aiContext::getConfig`. -/
def getConfig (ctx : aiContext Config TS) : Config := ctx.m_config

/-- The member `aiContext::setConfig`. -/
def setConfig (config : Config) (ctx : aiContext Config TS) : aiContext Config TS :=
  { ctx with m_config := config }

/-- The member `aiContext::queueAsync`. -/
def queueAsync (task : aiAsync) (ctx : aiContext Config TS) : aiContext Config TS :=
  { ctx with m_async_tasks := ctx.m_async_tasks ++ [task] }

/-- The member `aiContext::waitAsync`: `wait()` on every queued task in order, then clear
the queue. -/
def waitAsync (ctx : aiContext Config TS) : aiContext Config TS × List Event :=
  ({ ctx with m_async_tasks := [] }, ctx.m_async_tasks.map Event.wait)

/-- The member `aiContext::reset`. -/
def reset (ctx : aiContext Config TS) : aiContext Config TS × List Event :=
  let w := waitAsync ctx
  let c := w.1
  ({ c with m_top_node := none, m_timesamplings := [], m_archive := none, m_path := "",
            m_streams := [] },
   w.2 ++ [Event.resetTopNode, Event.clearTimeSamplings, Event.resetArchive, Event.clearPath]
       ++ c.m_streams.map Event.deleteStream)

end aiContext

/-! ## Tree materialization -/

/-- Modelled from the spec: `aiObject::newChild` (declared in `aiObject.h`) constructs
the node for `abc`; the new node owns no children yet and becomes the last child
of the node it is created under. -/
def aiObject.newChild (abc : abcObject) : aiObject := aiObject.mk abc []

/-- What a walk below one node did: the child nodes the node acquired, whether an
exception ended the walk, and the archive objects a node was constructed for, in
order of construction. -/
structure Walk where
  nodes : List aiObject
  raised : Bool
  created : List abcObject

mutual
/-- The body of `gatherNodesRecursive(n)` for a node `n` wrapping the given object:
`getNumChildren()` may raise, otherwise the loop over the child slots runs. -/
def gatherUnder : abcObject → Walk
  | abcObject.mk _ true _ => ⟨[], true, []⟩
  | abcObject.mk _ false slots => gatherSlots slots
/-- The loop `for (i = 0; i < num_children; ++i)` from the given slot on: `getChild(i)`
may raise; otherwise `newChild` constructs the child, and the recursive call fills
the child before the next slot is read. -/
def gatherSlots : List (Option abcObject) → Walk
  | [] => ⟨[], false, []⟩
  | none :: _ => ⟨[], true, []⟩
  | some c :: rest =>
    let w := gatherUnder c
    if w.raised then
      ⟨[aiObject.mk c ((aiObject.newChild c).getChildren ++ w.nodes)], true, c :: w.created⟩
    else
      let r := gatherSlots rest
      ⟨aiObject.mk c ((aiObject.newChild c).getChildren ++ w.nodes) :: r.nodes, r.raised,
        c :: (w.created ++ r.created)⟩
end

/-- Result of `gatherNodesRecursive(n)`: the node `n` afterwards, whether an exception
left the call, and the objects a node was constructed for, in order. -/
structure Gathered where
  node : aiObject
  raised : Bool
  created : List abcObject

/-- The member `aiContext::gatherNodesRecursive(n)`. -/
def gatherNodesRecursive (n : aiObject) : Gathered :=
  let w := gatherUnder n.getAbcObject
  ⟨aiObject.mk n.getAbcObject (n.getChildren ++ w.nodes), w.raised, w.created⟩

mutual
/-- Modelled from the spec: the visiting order of `aiContext::eachNodes` (declared in
`aiContext.h`): every node of the tree, in the order of materialization. -/
def aiObject.eachNode : aiObject → List aiObject
  | aiObject.mk abc cs => aiObject.mk abc cs :: aiObject.eachNodeOfList cs
/-- The nodes below a list of siblings, in the order of materialization. -/
def aiObject.eachNodeOfList : List aiObject → List aiObject
  | [] => []
  | c :: cs => aiObject.eachNode c ++ aiObject.eachNodeOfList cs
end

namespace aiContext

variable {Config TS : Type}

/-- The stream `load` creates: `lockFreeIStream(wpath)` on Windows, `std::ifstream(in_path)`
on Linux, `std::ifstream(path)` elsewhere. -/
def newStream (plat : Platform) (in_path path : String) : ifstream :=
  match plat with
  | Platform.windows => ⟨S (L in_path)⟩
  | Platform.linux => ⟨in_path⟩
  | Platform.other => ⟨path⟩

/-- Lines 240-276 of `load`: the two tier open. -/
def openArchive (plat : Platform) (rd : ArchiveReaders) (in_path path : String)
    (ctx : aiContext Config TS) : aiContext Config TS × List Event :=
  match ctx.m_archive with
  | some _ => (ctx, [])
  | none =>
    let s := newStream plat in_path path
    let c1 := { ctx with m_streams := ctx.m_streams ++ [s] }
    match rd.ogawa c1.m_streams c1.m_path with
    | Except.ok a =>
      ({ c1 with m_archive := some a }, [Event.newStream s, Event.readOgawa c1.m_streams c1.m_path])
    | Except.error _ =>
      let c2 := { c1 with m_streams := [] }
      let tr := [Event.newStream s, Event.readOgawa c1.m_streams c1.m_path]
                  ++ c1.m_streams.map Event.deleteStream
      match rd.hdf5 path with
      | Except.ok a => ({ c2 with m_archive := some a }, tr ++ [Event.readHDF5 path])
      | Except.error _ => (c2, tr ++ [Event.readHDF5 path])

/-- Lines 278-293 of `load`: materialize the tree and the time samplings, or reset. -/
def materialize (aiCreateTimeSampling : IArchive → Nat → TS)
    (ctx : aiContext Config TS) : LoadResult Config TS :=
  match ctx.m_archive with
  | some a =>
    let g := gatherNodesRecursive (aiObject.mk a.getTop [])
    let c1 := { ctx with m_top_node := some g.node }
    let tr := Event.newObject a.getTop :: g.created.map Event.newObject
    if g.raised then ⟨Outcome.raised, c1, tr⟩
    else
      ⟨Outcome.returned true,
       { c1 with m_timesamplings :=
                   (List.range a.getNumTimeSamplings).map (aiCreateTimeSampling a) },
       tr ++ [Event.clearTimeSamplings]⟩
  | none =>
    let r := reset ctx
    ⟨Outcome.returned false, r.1, r.2⟩

/-- The member `aiContext::load(in_path)` for an argument that is the null pointer (`none`)
or valid UTF-8 (the decoded text); for the null pointer the conversion of `in_path` to
`std::string` in `L(in_path)` raises. The remaining arguments are covered by `loadCString`. -/
def load (plat : Platform) (rd : ArchiveReaders) (aiCreateTimeSampling : IArchive → Nat → TS)
    (in_path : Option String) (ctx : aiContext Config TS) : LoadResult Config TS :=
  let path := NormalizePath plat in_path
  match in_path with
  | none => ⟨Outcome.raised, ctx, []⟩
  | some p =>
    if path = ctx.m_path ∧ ctx.m_archive.isSome then ⟨Outcome.returned true, ctx, []⟩
    else
      let r := reset ctx
      if path = "" then ⟨Outcome.returned false, r.1, r.2⟩
      else
        let o := openArchive plat rd p path { r.1 with m_path := path }
        let m := materialize aiCreateTimeSampling o.1
        ⟨m.out, m.ctx, r.2 ++ o.2 ++ m.trace⟩

/-- The nodes `eachNodes` visits. -/
def eachNodes (ctx : aiContext Config TS) : List aiObject :=
  match ctx.m_top_node with
  | some top => top.eachNode
  | none => []

/-- The synchronous phase of `updateSamples`: each node's `updateSample`, which queues
the tasks `upd` names through `queueAsync`. -/
def visitNodes (upd : aiObject → List aiAsync) :
    List aiObject → aiContext Config TS → aiContext Config TS × List Event
  | [], ctx => (ctx, [])
  | o :: rest, ctx =>
    let c := (upd o).foldl (fun c t => queueAsync t c) ctx
    let r := visitNodes upd rest c
    (r.1, Event.updateSample o :: (upd o).map Event.queueAsync ++ r.2)

/-- The member `aiContext::updateSamples(time)`; `updateSample o ss` are the tasks the node `o`
queues in its `updateSample(ss)`. -/
def updateSamples {T SS : Type} (aiTimeToSampleSelector : T → SS)
    (updateSample : aiObject → SS → List aiAsync) (time : T)
    (ctx : aiContext Config TS) : aiContext Config TS × List Event :=
  let w := waitAsync ctx
  let ss := aiTimeToSampleSelector time
  let v := visitNodes (fun o => updateSample o ss) (eachNodes w.1) w.1
  (v.1, w.2 ++ v.2 ++ (if v.1.m_async_tasks.isEmpty then [] else [Event.queue v.1.m_async_tasks]))

/-- The function `std::min(a, b)`. -/
def stdMin {T : Type} [LinearOrder T] (a b : T) : T := if b < a then b else a

/-- The function `std::max(a, b)`. -/
def stdMax {T : Type} [LinearOrder T] (a b : T) : T := if a < b then b else a

/-- The loop of `getTimeRange` from index `i` on, over the samplings from that index. -/
def getTimeRangeFrom {T : Type} [LinearOrder T] (getTimeRange : TS → T × T) :
    Nat → List TS → T × T → T × T
  | _, [], acc => acc
  | i, t :: rest, acc =>
    let tmp := getTimeRange t
    getTimeRangeFrom getTimeRange (i + 1) rest
      (if i = 1 then tmp else (stdMin acc.1 tmp.1, stdMax acc.2 tmp.2))

/-- The member `aiContext::getTimeRange`, as the pair `(begin, end)`; the argument is
`aiTimeSampling::getTimeRange`. -/
def getTimeRange {T : Type} [LinearOrder T] [Zero T] (getTimeRange : TS → T × T)
    (ctx : aiContext Config TS) : T × T :=
  getTimeRangeFrom getTimeRange 1 (ctx.m_timesamplings.drop 1) (0, 0)

/-- The session is in the state Empty. -/
def isEmpty (ctx : aiContext Config TS) : Bool :=
  ctx.m_path == "" && ctx.m_archive.isNone && ctx.m_top_node.isNone
    && ctx.m_timesamplings.isEmpty && ctx.m_streams.isEmpty

/-- The session is in the state Loaded. -/
def isLoaded (ctx : aiContext Config TS) : Bool :=
  ctx.m_path != "" && ctx.m_archive.isSome && ctx.m_top_node.isSome

end aiContext

/-- A call of a public member function of `aiContext`, with what the collaborators do
during the call. -/
inductive Op (Config TS : Type) : Type 1 where
  | load (rd : ArchiveReaders) (aiCreateTimeSampling : IArchive → Nat → TS)
      (in_path : Option String)
  | reset
  | updateSamples (T SS : Type) (aiTimeToSampleSelector : T → SS)
      (updateSample : aiObject → SS → List aiAsync) (time : T)
  | setConfig (config : Config)
  | queueAsync (task : aiAsync)
  | waitAsync

/-- The session after one call. -/
def Op.apply {Config TS : Type} (plat : Platform) (ctx : aiContext Config TS) :
    Op Config TS → aiContext Config TS
  | Op.load rd mk in_path => (ctx.load plat rd mk in_path).ctx
  | Op.reset => ctx.reset.1
  | Op.updateSamples _ _ sel upd time => (ctx.updateSamples sel upd time).1
  | Op.setConfig config => ctx.setConfig config
  | Op.queueAsync task => ctx.queueAsync task
  | Op.waitAsync => ctx.waitAsync.1

/-- The session after a sequence of calls. -/
def runOps {Config TS : Type} (plat : Platform) (ops : List (Op Config TS))
    (ctx : aiContext Config TS) : aiContext Config TS :=
  ops.foldl (Op.apply plat) ctx

/-! ## Reference notions used to state the properties -/

mutual
/-- The child enumeration below the object never raises: `getNumChildren()` succeeds on
the object and `getChild(i)` succeeds for each slot, and so on below each child. -/
def abcObject.readable : abcObject → Bool
  | abcObject.mk _ fails slots => !fails && abcObject.readableSlots slots
/-- Every slot of the list can be read, and so on below each child. -/
def abcObject.readableSlots : List (Option abcObject) → Bool
  | [] => true
  | none :: _ => false
  | some c :: rest => c.readable && abcObject.readableSlots rest
end

mutual
/-- The objects strictly below an archive object, in depth-first pre-order: each child in
native order, followed by everything below that child, before the next sibling. -/
def abcObject.descendants : abcObject → List abcObject
  | abcObject.mk _ _ slots => abcObject.descendantsOfSlots slots
/-- The pre-order of the objects in and below a list of child slots. -/
def abcObject.descendantsOfSlots : List (Option abcObject) → List abcObject
  | [] => []
  | none :: rest => abcObject.descendantsOfSlots rest
  | some c :: rest => c :: (c.descendants ++ abcObject.descendantsOfSlots rest)
end

mutual
/-- The node tree with the shape of the archive tree: one node per object, the children
of a node being the nodes of the object's children in native order. -/
def abcObject.mirror : abcObject → aiObject
  | abcObject.mk name fails slots =>
    aiObject.mk (abcObject.mk name fails slots) (abcObject.mirrorSlots slots)
/-- The nodes of a list of child slots, in order. -/
def abcObject.mirrorSlots : List (Option abcObject) → List aiObject
  | [] => []
  | none :: rest => abcObject.mirrorSlots rest
  | some c :: rest => c.mirror :: abcObject.mirrorSlots rest
end

/-- The archive the two tier open yields for `in_path` on a session that holds no archive
and no stream: the first tier's archive if the stream based reader succeeds, else the
second tier's if the direct path reader succeeds, else none. -/
def ArchiveReaders.firstSuccess (rd : ArchiveReaders) (plat : Platform) (in_path : String) :
    Option IArchive :=
  match rd.ogawa [aiContext.newStream plat in_path (NormalizePath plat (some in_path))]
      (NormalizePath plat (some in_path)) with
  | Except.ok a => some a
  | Except.error _ =>
    match rd.hdf5 (NormalizePath plat (some in_path)) with
    | Except.ok a => some a
    | Except.error _ => none

/-- The event is an attempt to open an archive (creating a stream or calling a reader). -/
def Event.isOpenAttempt : Event → Bool
  | Event.newStream _ => true
  | Event.readOgawa _ _ => true
  | Event.readHDF5 _ => true
  | _ => false

/-- The event releases state of the session: the tree, the time samplings, the archive,
the path or a stream. -/
def Event.isRelease : Event → Bool
  | Event.resetTopNode => true
  | Event.clearTimeSamplings => true
  | Event.resetArchive => true
  | Event.clearPath => true
  | Event.deleteStream _ => true
  | _ => false

/-- The state invariant of the session: it is Empty or Loaded. -/
def aiContext.Inv {Config TS : Type} (ctx : aiContext Config TS) : Prop :=
  ctx.isEmpty = true ∨ ctx.isLoaded = true

/-- The session that `load` hands to the materialization when a tier opened `a`, owning
the streams `ss`: the session after `reset` with the path, the streams and the archive. -/
def aiContext.opened {Config TS : Type} (ctx : aiContext Config TS) (path : String)
    (ss : List ifstream) (a : IArchive) : aiContext Config TS :=
  { ctx.reset.1 with m_path := path, m_streams := ss, m_archive := some a }

/-! ## Time sampling lookup -/

/-- The loop of `getTimeSamplingIndex` from index `i` on, over the archive's samplings
from that index: the first index whose sampling is the pointer `ts`, else `0`. -/
def getTimeSamplingIndexFrom (ts : TimeSamplingPtr) : Nat → List TimeSamplingPtr → Int
  | _, [] => 0
  | i, t :: rest => if t = ts then (i : Int) else getTimeSamplingIndexFrom ts (i + 1) rest

/-- The member `aiContext::getTimeSamplingIndex(ts)`; the result is `none` when the archive
handle is not valid, where the call on the handle is undefined. -/
def aiContext.getTimeSamplingIndex {Config TS : Type} (ts : TimeSamplingPtr)
    (ctx : aiContext Config TS) : Option Int :=
  match ctx.m_archive with
  | none => none
  | some a => some (getTimeSamplingIndexFrom ts 0 a.timeSamplings)

/-- The destructor `aiContext::~aiContext`: the effects of `reset`. -/
def aiContext.destroy {Config TS : Type} (ctx : aiContext Config TS) : List Event :=
  ctx.reset.2

/-! ## The registry -/

/-- The data of `aiContextManager`: `m_contexts`, a `std::map` from id to the session it
owns, as the list of its entries in the order of iteration. -/
structure aiContextManager (Config TS : Type) where
  m_contexts : List (Int × aiContext Config TS)

namespace aiContextManager

variable {Config TS : Type}

/-- The lookup `m_contexts.find(uid)`: the session of the entry with key `uid`, if any. -/
def find (uid : Int) : List (Int × aiContext Config TS) → Option (aiContext Config TS)
  | [] => none
  | (k, c) :: rest => if k = uid then some c else find uid rest

/-- The update `m_contexts[uid].reset(ctx)`: the entry with key `uid` owns `ctx` afterwards;
a missing entry is created at its place in key order. -/
def assign (uid : Int) (ctx : aiContext Config TS) :
    List (Int × aiContext Config TS) → List (Int × aiContext Config TS)
  | [] => [(uid, ctx)]
  | (k, c) :: rest =>
    if uid < k then (uid, ctx) :: (k, c) :: rest
    else if uid = k then (k, ctx) :: rest
    else (k, c) :: assign uid ctx rest

/-- The removal `m_contexts.erase(it)` for the iterator `it` that `find(uid)` returned. -/
def erase (uid : Int) :
    List (Int × aiContext Config TS) → List (Int × aiContext Config TS)
  | [] => []
  | (k, c) :: rest => if k = uid then rest else (k, c) :: erase uid rest

/-- The keys of a `std::map` are strictly ascending in the order of iteration. -/
def WellFormed (reg : aiContextManager Config TS) : Prop :=
  reg.m_contexts.Pairwise (fun a b => a.1 < b.1)

/-- The function `aiContextManager::getContext(uid)`: the registry afterwards and the
session the returned pointer refers to; `config` is the default constructed `aiConfig`. -/
def getContext (config : Config) (uid : Int) (reg : aiContextManager Config TS) :
    aiContextManager Config TS × aiContext Config TS :=
  match find uid reg.m_contexts with
  | some c => (reg, c)
  | none =>
    let ctx := aiContext.new config uid
    (⟨assign uid ctx reg.m_contexts⟩, ctx)

/-- The function `aiContextManager::destroyContext(uid)`: the registry afterwards and the
effects of destroying the erased session. -/
def destroyContext (uid : Int) (reg : aiContextManager Config TS) :
    aiContextManager Config TS × List Event :=
  match find uid reg.m_contexts with
  | some c => (⟨erase uid reg.m_contexts⟩, c.destroy)
  | none => (reg, [])

/-- The loop of `destroyContextsWithPath` from the given entry on: an entry whose session
has the path is erased (and its session destroyed), any other entry is kept. -/
def destroyLoop (path : String) :
    List (Int × aiContext Config TS) → List (Int × aiContext Config TS) × List Event
  | [] => ([], [])
  | (k, c) :: rest =>
    if c.getPath = path then
      ((destroyLoop path rest).1, c.destroy ++ (destroyLoop path rest).2)
    else
      ((k, c) :: (destroyLoop path rest).1, (destroyLoop path rest).2)

/-- The function `aiContextManager::destroyContextsWithPath(asset_path)`; `none` is the
null pointer. -/
def destroyContextsWithPath (plat : Platform) (asset_path : Option String)
    (reg : aiContextManager Config TS) : aiContextManager Config TS × List Event :=
  let path := NormalizePath plat asset_path
  (⟨(destroyLoop path reg.m_contexts).1⟩, (destroyLoop path reg.m_contexts).2)

/-- A public call on the session registered under `uid`, through the pointer `getContext`
returned: the entry's session is replaced by the session after the call. -/
def onContext (uid : Int) (f : aiContext Config TS → aiContext Config TS) :
    List (Int × aiContext Config TS) → List (Int × aiContext Config TS)
  | [] => []
  | (k, c) :: rest => if k = uid then (k, f c) :: rest else (k, c) :: onContext uid f rest

end aiContextManager

/-- A call on the registry, or a public call on a registered session. -/
inductive ManagerOp (Config TS : Type) : Type 1 where
  | getContext (uid : Int)
  | destroyContext (uid : Int)
  | destroyContextsWithPath (asset_path : Option String)
  | onContext (uid : Int) (op : Op Config TS)

/-- The registry after one call. -/
def ManagerOp.apply {Config TS : Type} (plat : Platform) (config : Config)
    (reg : aiContextManager Config TS) : ManagerOp Config TS → aiContextManager Config TS
  | ManagerOp.getContext uid => (reg.getContext config uid).1
  | ManagerOp.destroyContext uid => (reg.destroyContext uid).1
  | ManagerOp.destroyContextsWithPath asset_path =>
    (reg.destroyContextsWithPath plat asset_path).1
  | ManagerOp.onContext uid op =>
    ⟨aiContextManager.onContext uid (fun c => op.apply plat c) reg.m_contexts⟩

/-- The registry after a sequence of calls. -/
def runManager {Config TS : Type} (plat : Platform) (config : Config)
    (ops : List (ManagerOp Config TS)) (reg : aiContextManager Config TS) :
    aiContextManager Config TS :=
  ops.foldl (ManagerOp.apply plat config) reg

/-! ## Further reference notions -/

/-- The event is a call of the stream based reader. -/
def Event.isReadOgawa : Event → Bool
  | Event.readOgawa _ _ => true
  | _ => false

/-- The event is a call of the direct path reader. -/
def Event.isReadHDF5 : Event → Bool
  | Event.readHDF5 _ => true
  | _ => false

/-- The character `NormalizePath` is specified to put for `c` where paths compare without
case: a slash for a backslash, the lowercase letter for an ASCII capital, else `c`. -/
def canonicalChar (c : Char) : Char :=
  if c = '\\' then '/' else c.toLower

/-! ## Concrete archives and sessions -/

namespace Example

/-- A root object with three nested objects. -/
def sceneTop : abcObject :=
  abcObject.mk "ABC" false
    [some (abcObject.mk "xform" false [some (abcObject.mk "mesh" false [])]),
     some (abcObject.mk "camera" false [])]

/-- An archive with the three nested objects and two time samplings. -/
def scene : IArchive := ⟨sceneTop, [100, 200]⟩

/-- An archive whose top object cannot enumerate its children. -/
def damaged : IArchive := ⟨abcObject.mk "ABC" true [], [100]⟩

/-- Readers for a file in the streaming format. -/
def ogawaReaders : ArchiveReaders :=
  ⟨fun _ _ => Except.ok scene, fun _ => Except.error "not an HDF5 file"⟩

/-- Readers for a file in the direct path format. -/
def hdf5Readers : ArchiveReaders :=
  ⟨fun _ _ => Except.error "not an Ogawa file", fun _ => Except.ok scene⟩

/-- Readers for a file that neither reader can open. -/
def failingReaders : ArchiveReaders :=
  ⟨fun _ _ => Except.error "not an Ogawa file", fun _ => Except.error "not an HDF5 file"⟩

/-- Readers for a file that opens but whose top object is damaged. -/
def damagedReaders : ArchiveReaders :=
  ⟨fun _ _ => Except.ok damaged, fun _ => Except.error "not an HDF5 file"⟩

/-- A time sampling is represented by the archive index it was created from. -/
def createSampling : IArchive → Nat → Nat := fun _ i => i

/-- A newly constructed session with id 1. -/
def fresh : aiContext Unit Nat := aiContext.new () 1

/-- The session after loading the scene. -/
def loaded : aiContext Unit Nat :=
  (fresh.load Platform.linux ogawaReaders createSampling (some "/tmp/scene.abc")).ctx

/-- The session left behind by a `load` of the damaged file, which raised during the
materialization: the path and the damaged archive are held, no time sampling is. -/
def stale : aiContext Unit Nat :=
  (fresh.load Platform.linux damagedReaders createSampling (some "/tmp/scene.abc")).ctx

/-- A session holding four time samplings, each represented by its time range. -/
def sampled : aiContext Unit (Int × Int) :=
  { m_uid := 1, m_path := "", m_archive := none, m_streams := [], m_top_node := none,
    m_timesamplings := [(-100, 100), (5, 50), (1, 10), (-2, 7)], m_async_tasks := [],
    m_config := () }

/-- A registry with the loaded scene under id 1 and a new session under id 2. -/
def registry : aiContextManager Unit Nat :=
  ⟨[(1, loaded), (2, aiContext.new () 2)]⟩

/-- A session whose archive reports the samplings at the addresses 100, 200 and 200. -/
def indexed : aiContext Unit Nat :=
  { fresh with m_path := "/tmp/scene.abc", m_archive := some ⟨sceneTop, [100, 200, 200]⟩ }

/-- Calls that register a session under id 1 and load a scene through it. -/
def managerOps : List (ManagerOp Unit Nat) :=
  [ManagerOp.getContext 1,
   ManagerOp.onContext 1 (Op.load ogawaReaders createSampling (some "C:\\Scenes\\A.abc"))]

/-- The session registered under id 1 after these calls on Windows. -/
def registered : aiContext Unit Nat :=
  (fresh.load Platform.windows ogawaReaders createSampling (some "C:\\Scenes\\A.abc")).ctx

end Example

/-! # Theorems -/

/-! ## Basic facts about the session states -/

namespace aiContext

variable {Config TS : Type}

theorem isEmpty_iff (ctx : aiContext Config TS) :
    ctx.isEmpty = true ↔
      ctx.m_path = "" ∧ ctx.m_archive = none ∧ ctx.m_top_node = none
        ∧ ctx.m_timesamplings = [] ∧ ctx.m_streams = [] := by
  simp [isEmpty, and_assoc]

theorem isLoaded_iff (ctx : aiContext Config TS) :
    ctx.isLoaded = true ↔
      ctx.m_path ≠ "" ∧ ctx.m_archive.isSome = true ∧ ctx.m_top_node.isSome = true := by
  simp [isLoaded, and_assoc]

theorem reset_isEmpty (ctx : aiContext Config TS) : ctx.reset.1.isEmpty = true := by
  simp [isEmpty_iff, reset, waitAsync]

theorem reset_async_tasks (ctx : aiContext Config TS) : ctx.reset.1.m_async_tasks = [] := by
  simp [reset, waitAsync]

theorem reset_config (ctx : aiContext Config TS) : ctx.reset.1.m_config = ctx.m_config := by
  simp [reset, waitAsync]

theorem reset_uid (ctx : aiContext Config TS) : ctx.reset.1.m_uid = ctx.m_uid := by
  simp [reset, waitAsync]

theorem Inv.path_iff {ctx : aiContext Config TS} (h : ctx.Inv) :
    ctx.m_path ≠ "" ↔ ctx.m_archive.isSome = true := by
  rcases h with h | h
  · rw [isEmpty_iff] at h
    simp [h.1, h.2.1]
  · rw [isLoaded_iff] at h
    simp [h.1, h.2.1]

theorem openArchive_of_none (plat : Platform) (rd : ArchiveReaders) (in_path path : String)
    (ctx : aiContext Config TS) (h : ctx.m_archive = none) :
    (∃ a, rd.ogawa (ctx.m_streams ++ [newStream plat in_path path]) ctx.m_path = Except.ok a ∧
        openArchive plat rd in_path path ctx =
          ({ ctx with m_streams := ctx.m_streams ++ [newStream plat in_path path],
                      m_archive := some a },
           [Event.newStream (newStream plat in_path path),
            Event.readOgawa (ctx.m_streams ++ [newStream plat in_path path]) ctx.m_path]))
    ∨ (∃ e a, rd.ogawa (ctx.m_streams ++ [newStream plat in_path path]) ctx.m_path
          = Except.error e ∧ rd.hdf5 path = Except.ok a ∧
        openArchive plat rd in_path path ctx =
          ({ ctx with m_streams := [], m_archive := some a },
           [Event.newStream (newStream plat in_path path),
            Event.readOgawa (ctx.m_streams ++ [newStream plat in_path path]) ctx.m_path]
            ++ (ctx.m_streams ++ [newStream plat in_path path]).map Event.deleteStream
            ++ [Event.readHDF5 path]))
    ∨ (∃ e e2, rd.ogawa (ctx.m_streams ++ [newStream plat in_path path]) ctx.m_path
          = Except.error e ∧ rd.hdf5 path = Except.error e2 ∧
        openArchive plat rd in_path path ctx =
          ({ ctx with m_streams := [] },
           [Event.newStream (newStream plat in_path path),
            Event.readOgawa (ctx.m_streams ++ [newStream plat in_path path]) ctx.m_path]
            ++ (ctx.m_streams ++ [newStream plat in_path path]).map Event.deleteStream
            ++ [Event.readHDF5 path])) := by
  unfold openArchive
  rw [h]
  simp only
  cases h1 : rd.ogawa (ctx.m_streams ++ [newStream plat in_path path]) ctx.m_path with
  | ok a => exact Or.inl ⟨a, rfl, rfl⟩
  | error e =>
    cases h2 : rd.hdf5 path with
    | ok a => exact Or.inr (Or.inl ⟨e, a, rfl, rfl, rfl⟩)
    | error e2 => exact Or.inr (Or.inr ⟨e, e2, rfl, rfl, rfl⟩)

theorem materialize_inv (mk : IArchive → Nat → TS) (ctx : aiContext Config TS)
    (hp : ctx.m_path ≠ "") : (materialize mk ctx).ctx.Inv := by
  unfold materialize
  cases h : ctx.m_archive with
  | none => exact Or.inl (reset_isEmpty ctx)
  | some a =>
    right
    simp only
    split <;> simp [isLoaded_iff, hp, h]

theorem load_inv (plat : Platform) (rd : ArchiveReaders) (mk : IArchive → Nat → TS)
    (in_path : Option String) (ctx : aiContext Config TS) (h : ctx.Inv) :
    (ctx.load plat rd mk in_path).ctx.Inv := by
  unfold load
  cases in_path with
  | none => exact h
  | some p =>
    simp only
    split
    · exact h
    · split
      · exact Or.inl (reset_isEmpty ctx)
      · rename_i hne
        apply materialize_inv
        have hnone : ({ ctx.reset.1 with m_path := NormalizePath plat (some p) } :
            aiContext Config TS).m_archive = none := by simp [reset, waitAsync]
        rcases openArchive_of_none plat rd p (NormalizePath plat (some p)) _ hnone with
          ⟨a, _, he⟩ | ⟨e, a, _, _, he⟩ | ⟨e, e2, _, _, he⟩ <;> rw [he] <;> exact hne

theorem foldl_queueAsync (ts : List aiAsync) (c : aiContext Config TS) :
    ts.foldl (fun c t => queueAsync t c) c
      = { c with m_async_tasks := c.m_async_tasks ++ ts } := by
  induction ts generalizing c with
  | nil => simp
  | cons t ts iht =>
    rw [List.foldl_cons, iht]
    simp [queueAsync]

theorem visitNodes_frame (upd : aiObject → List aiAsync) (nodes : List aiObject)
    (ctx : aiContext Config TS) :
    (visitNodes upd nodes ctx).1 =
      { ctx with m_async_tasks := ctx.m_async_tasks ++ nodes.flatMap upd } := by
  induction nodes generalizing ctx with
  | nil => simp [visitNodes]
  | cons o rest ih =>
    simp [visitNodes, ih, foldl_queueAsync]

theorem updateSamples_frame {T SS : Type} (sel : T → SS)
    (upd : aiObject → SS → List aiAsync) (time : T) (ctx : aiContext Config TS) :
    (ctx.updateSamples sel upd time).1 =
      { ctx with m_async_tasks := ctx.eachNodes.flatMap (fun o => upd o (sel time)) } := by
  simp [updateSamples, visitNodes_frame, waitAsync, eachNodes]

theorem apply_inv (plat : Platform) (ctx : aiContext Config TS) (op : Op Config TS)
    (h : ctx.Inv) : (op.apply plat ctx).Inv := by
  cases op with
  | load rd mk in_path => exact load_inv plat rd mk in_path ctx h
  | reset => exact Or.inl (reset_isEmpty ctx)
  | updateSamples T SS sel upd time =>
    simp only [Op.apply, updateSamples_frame]
    simpa [Inv, isEmpty_iff, isLoaded_iff] using h
  | setConfig config => simpa [Op.apply, setConfig, Inv, isEmpty_iff, isLoaded_iff] using h
  | queueAsync task => simpa [Op.apply, queueAsync, Inv, isEmpty_iff, isLoaded_iff] using h
  | waitAsync => simpa [Op.apply, waitAsync, Inv, isEmpty_iff, isLoaded_iff] using h

theorem runOps_inv (plat : Platform) (ops : List (Op Config TS)) (ctx : aiContext Config TS)
    (h : ctx.Inv) : (runOps plat ops ctx).Inv := by
  induction ops generalizing ctx with
  | nil => exact h
  | cons op ops ih => exact ih _ (apply_inv plat ctx op h)

theorem new_isEmpty (config : Config) (uid : Int) :
    (new config uid : aiContext Config TS).isEmpty = true := by
  simp [isEmpty_iff, new]

end aiContext

/-! ## Tree materialization -/

mutual
theorem gatherUnder_raised : ∀ abc : abcObject, (gatherUnder abc).raised = !abc.readable
  | abcObject.mk _ true _ => by simp [gatherUnder, abcObject.readable]
  | abcObject.mk _ false slots => by
    simp [gatherUnder, abcObject.readable, gatherSlots_raised slots]
theorem gatherSlots_raised :
    ∀ slots : List (Option abcObject), (gatherSlots slots).raised = !abcObject.readableSlots slots
  | [] => by simp [gatherSlots, abcObject.readableSlots]
  | none :: _ => by simp [gatherSlots, abcObject.readableSlots]
  | some c :: rest => by
    have h1 := gatherUnder_raised c
    have h2 := gatherSlots_raised rest
    simp only [gatherSlots, abcObject.readableSlots]
    cases hc : c.readable <;> simp [hc] at h1 <;> simp [h1, h2]
end

mutual
theorem gatherUnder_readable :
    ∀ abc : abcObject, abc.readable = true →
      (gatherUnder abc).nodes = abcObject.mirrorSlots (match abc with | abcObject.mk _ _ s => s)
        ∧ (gatherUnder abc).created = abc.descendants
  | abcObject.mk _ true _ => by simp [abcObject.readable]
  | abcObject.mk _ false slots => by
    intro h
    simp only [abcObject.readable, Bool.not_false, Bool.true_and] at h
    simpa [gatherUnder, abcObject.descendants] using gatherSlots_readable slots h
theorem gatherSlots_readable :
    ∀ slots : List (Option abcObject), abcObject.readableSlots slots = true →
      (gatherSlots slots).nodes = abcObject.mirrorSlots slots
        ∧ (gatherSlots slots).created = abcObject.descendantsOfSlots slots
  | [] => by simp [gatherSlots, abcObject.mirrorSlots, abcObject.descendantsOfSlots]
  | none :: _ => by simp [abcObject.readableSlots]
  | some (abcObject.mk n f s) :: rest => by
    intro h
    simp only [abcObject.readableSlots, Bool.and_eq_true] at h
    have h1 := gatherUnder_readable (abcObject.mk n f s) h.1
    have h2 := gatherSlots_readable rest h.2
    have h3 := gatherUnder_raised (abcObject.mk n f s)
    rw [h.1] at h3
    simp only [Bool.not_true] at h3
    simp [gatherSlots, h3, h1.1, h1.2, h2.1, h2.2, abcObject.mirrorSlots,
      abcObject.descendantsOfSlots, abcObject.mirror, aiObject.newChild, aiObject.getChildren]
end

/-! ## The paths through `load` -/

theorem S_eq_empty_iff (w : List Char) : S w = "" ↔ w = [] := by
  constructor
  · intro h
    have h2 : (S w).data = ("" : String).data := by rw [h]
    simpa [S] using h2
  · rintro rfl
    rfl

theorem NormalizePath_eq_empty_iff (plat : Platform) (p : String) :
    NormalizePath plat (some p) = "" ↔ p = "" := by
  have hp : p = "" ↔ p.data = [] := by
    constructor
    · rintro rfl; rfl
    · intro h
      cases p
      simp_all
  cases plat <;> simp [NormalizePath, S_eq_empty_iff, L, hp]

namespace aiContext

variable {Config TS : Type}

theorem load_null (plat : Platform) (rd : ArchiveReaders) (mk : IArchive → Nat → TS)
    (ctx : aiContext Config TS) :
    ctx.load plat rd mk none = ⟨Outcome.raised, ctx, []⟩ := rfl

theorem load_fast (plat : Platform) (rd : ArchiveReaders) (mk : IArchive → Nat → TS)
    (p : String) (ctx : aiContext Config TS)
    (h : NormalizePath plat (some p) = ctx.m_path ∧ ctx.m_archive.isSome = true) :
    ctx.load plat rd mk (some p) = ⟨Outcome.returned true, ctx, []⟩ := by
  simp only [load]
  rw [if_pos h]

theorem load_empty_path (plat : Platform) (rd : ArchiveReaders) (mk : IArchive → Nat → TS)
    (p : String) (ctx : aiContext Config TS)
    (h : ¬ (NormalizePath plat (some p) = ctx.m_path ∧ ctx.m_archive.isSome = true))
    (hp : p = "") :
    ctx.load plat rd mk (some p) = ⟨Outcome.returned false, ctx.reset.1, ctx.reset.2⟩ := by
  have hn := (NormalizePath_eq_empty_iff plat p).2 hp
  simp only [load]
  rw [if_neg h, if_pos hn]

theorem load_slow (plat : Platform) (rd : ArchiveReaders) (mk : IArchive → Nat → TS)
    (p : String) (ctx : aiContext Config TS)
    (h : ¬ (NormalizePath plat (some p) = ctx.m_path ∧ ctx.m_archive.isSome = true))
    (hp : p ≠ "") :
    (∃ a, rd.ogawa [newStream plat p (NormalizePath plat (some p))]
          (NormalizePath plat (some p)) = Except.ok a ∧
        rd.firstSuccess plat p = some a ∧
        ctx.load plat rd mk (some p) =
          ⟨(materialize mk (ctx.opened (NormalizePath plat (some p))
              [newStream plat p (NormalizePath plat (some p))] a)).out,
           (materialize mk (ctx.opened (NormalizePath plat (some p))
              [newStream plat p (NormalizePath plat (some p))] a)).ctx,
           ctx.reset.2 ++ [Event.newStream (newStream plat p (NormalizePath plat (some p))),
              Event.readOgawa [newStream plat p (NormalizePath plat (some p))]
                (NormalizePath plat (some p))]
            ++ (materialize mk (ctx.opened (NormalizePath plat (some p))
              [newStream plat p (NormalizePath plat (some p))] a)).trace⟩)
    ∨ (∃ e a, rd.ogawa [newStream plat p (NormalizePath plat (some p))]
          (NormalizePath plat (some p)) = Except.error e ∧
        rd.hdf5 (NormalizePath plat (some p)) = Except.ok a ∧
        rd.firstSuccess plat p = some a ∧
        ctx.load plat rd mk (some p) =
          ⟨(materialize mk (ctx.opened (NormalizePath plat (some p)) [] a)).out,
           (materialize mk (ctx.opened (NormalizePath plat (some p)) [] a)).ctx,
           ctx.reset.2 ++ [Event.newStream (newStream plat p (NormalizePath plat (some p))),
              Event.readOgawa [newStream plat p (NormalizePath plat (some p))]
                (NormalizePath plat (some p)),
              Event.deleteStream (newStream plat p (NormalizePath plat (some p))),
              Event.readHDF5 (NormalizePath plat (some p))]
            ++ (materialize mk (ctx.opened (NormalizePath plat (some p)) [] a)).trace⟩)
    ∨ (∃ e e2, rd.ogawa [newStream plat p (NormalizePath plat (some p))]
          (NormalizePath plat (some p)) = Except.error e ∧
        rd.hdf5 (NormalizePath plat (some p)) = Except.error e2 ∧
        rd.firstSuccess plat p = none ∧
        ctx.load plat rd mk (some p) =
          ⟨Outcome.returned false, ctx.reset.1,
           ctx.reset.2 ++ [Event.newStream (newStream plat p (NormalizePath plat (some p))),
              Event.readOgawa [newStream plat p (NormalizePath plat (some p))]
                (NormalizePath plat (some p)),
              Event.deleteStream (newStream plat p (NormalizePath plat (some p))),
              Event.readHDF5 (NormalizePath plat (some p)),
              Event.resetTopNode, Event.clearTimeSamplings, Event.resetArchive,
              Event.clearPath]⟩) := by
  have hn : ¬ NormalizePath plat (some p) = "" := fun hn =>
    hp ((NormalizePath_eq_empty_iff plat p).1 hn)
  simp only [load]
  rw [if_neg h, if_neg hn]
  cases h1 : rd.ogawa [newStream plat p (NormalizePath plat (some p))]
      (NormalizePath plat (some p)) with
  | ok a =>
    refine Or.inl ⟨a, rfl, ?_, ?_⟩
    · simp [ArchiveReaders.firstSuccess, h1]
    · simp [openArchive, reset, waitAsync, h1, opened]
  | error e =>
    cases h2 : rd.hdf5 (NormalizePath plat (some p)) with
    | ok a =>
      refine Or.inr (Or.inl ⟨e, a, rfl, rfl, ?_, ?_⟩)
      · simp [ArchiveReaders.firstSuccess, h1, h2]
      · simp [openArchive, reset, waitAsync, h1, h2, opened]
    | error e2 =>
      refine Or.inr (Or.inr ⟨e, e2, rfl, rfl, ?_, ?_⟩)
      · simp [ArchiveReaders.firstSuccess, h1, h2]
      · simp [openArchive, reset, waitAsync, h1, h2, materialize]

end aiContext

/-- The loop body in the shape of the source: the child appended for a readable slot is
the node `newChild` constructs, after `gatherNodesRecursive` ran on it. -/
theorem gatherSlots_cons_some (c : abcObject) (rest : List (Option abcObject)) :
    gatherSlots (some c :: rest) =
      if (gatherNodesRecursive (aiObject.newChild c)).raised then
        ⟨[(gatherNodesRecursive (aiObject.newChild c)).node], true,
          c :: (gatherNodesRecursive (aiObject.newChild c)).created⟩
      else
        ⟨(gatherNodesRecursive (aiObject.newChild c)).node :: (gatherSlots rest).nodes,
          (gatherSlots rest).raised,
          c :: ((gatherNodesRecursive (aiObject.newChild c)).created
            ++ (gatherSlots rest).created)⟩ := by
  simp [gatherSlots, gatherNodesRecursive, aiObject.newChild, aiObject.getAbcObject,
    aiObject.getChildren]

theorem gatherNodesRecursive_readable (abc : abcObject) (h : abc.readable = true) :
    gatherNodesRecursive (aiObject.mk abc []) = ⟨abc.mirror, false, abc.descendants⟩ := by
  have h1 := gatherUnder_readable abc h
  have h2 := gatherUnder_raised abc
  rw [h] at h2
  cases abc with
  | mk n f s =>
    simp only [Bool.not_true] at h2
    simp [gatherNodesRecursive, aiObject.getAbcObject, aiObject.getChildren, h1.1, h1.2, h2,
      abcObject.mirror]

theorem gatherNodesRecursive_raised (n : aiObject) :
    (gatherNodesRecursive n).raised = !n.getAbcObject.readable := by
  simp [gatherNodesRecursive, gatherUnder_raised]

mutual
theorem eachNode_mirror :
    ∀ abc : abcObject,
      abc.mirror.eachNode.map aiObject.getAbcObject = abc :: abc.descendants
  | abcObject.mk n f slots => by
    simp [abcObject.mirror, aiObject.eachNode, aiObject.getAbcObject, abcObject.descendants,
      eachNodeOfList_mirrorSlots slots]
theorem eachNodeOfList_mirrorSlots :
    ∀ slots : List (Option abcObject),
      (aiObject.eachNodeOfList (abcObject.mirrorSlots slots)).map aiObject.getAbcObject
        = abcObject.descendantsOfSlots slots
  | [] => by simp [abcObject.mirrorSlots, aiObject.eachNodeOfList, abcObject.descendantsOfSlots]
  | none :: rest => by
    simpa [abcObject.mirrorSlots, abcObject.descendantsOfSlots]
      using eachNodeOfList_mirrorSlots rest
  | some c :: rest => by
    have h1 := eachNode_mirror c
    have h2 := eachNodeOfList_mirrorSlots rest
    simp [abcObject.mirrorSlots, aiObject.eachNodeOfList, abcObject.descendantsOfSlots, h1, h2]
end

namespace aiContext

variable {Config TS : Type}

theorem materialize_readable (mk : IArchive → Nat → TS) (ctx : aiContext Config TS)
    (path : String) (ss : List ifstream) (a : IArchive) (h : a.getTop.readable = true) :
    materialize mk (ctx.opened path ss a) =
      ⟨Outcome.returned true,
       { ctx.opened path ss a with
          m_top_node := some a.getTop.mirror,
          m_timesamplings := (List.range a.getNumTimeSamplings).map (mk a) },
       Event.newObject a.getTop :: a.getTop.descendants.map Event.newObject
         ++ [Event.clearTimeSamplings]⟩ := by
  simp [materialize, opened, gatherNodesRecursive_readable _ h]

theorem materialize_unreadable (mk : IArchive → Nat → TS) (ctx : aiContext Config TS)
    (path : String) (ss : List ifstream) (a : IArchive) (h : a.getTop.readable = false) :
    materialize mk (ctx.opened path ss a) =
      ⟨Outcome.raised,
       { ctx.opened path ss a with
          m_top_node := some (gatherNodesRecursive (aiObject.mk a.getTop [])).node },
       Event.newObject a.getTop
         :: (gatherNodesRecursive (aiObject.mk a.getTop [])).created.map Event.newObject⟩ := by
  have hr := gatherNodesRecursive_raised (aiObject.mk a.getTop [])
  simp only [aiObject.getAbcObject, h, Bool.not_false] at hr
  simp [materialize, opened, hr]

theorem load_true_state (plat : Platform) (rd : ArchiveReaders) (mk : IArchive → Nat → TS)
    (in_path : Option String) (ctx : aiContext Config TS)
    (h : (ctx.load plat rd mk in_path).out = Outcome.returned true) :
    NormalizePath plat in_path = (ctx.load plat rd mk in_path).ctx.m_path
      ∧ (ctx.load plat rd mk in_path).ctx.m_archive.isSome = true := by
  cases in_path with
  | none => simp [load_null] at h
  | some p =>
    by_cases hf : NormalizePath plat (some p) = ctx.m_path ∧ ctx.m_archive.isSome = true
    · rw [load_fast plat rd mk p ctx hf]
      exact hf
    · by_cases hp : p = ""
      · rw [load_empty_path plat rd mk p ctx hf hp] at h
        simp at h
      · rcases load_slow plat rd mk p ctx hf hp with
          ⟨a, _, _, he⟩ | ⟨e, a, _, _, _, he⟩ | ⟨e, e2, _, _, _, he⟩
        · rw [he] at h ⊢
          cases hr : a.getTop.readable
          · rw [materialize_unreadable mk ctx _ _ a hr] at h
            simp at h
          · rw [materialize_readable mk ctx _ _ a hr]
            simp [opened]
        · rw [he] at h ⊢
          cases hr : a.getTop.readable
          · rw [materialize_unreadable mk ctx _ _ a hr] at h
            simp at h
          · rw [materialize_readable mk ctx _ _ a hr]
            simp [opened]
        · rw [he] at h
          simp at h

theorem reset_trace_no_open (ctx : aiContext Config TS) :
    ∀ e ∈ ctx.reset.2, e.isOpenAttempt = false := by
  intro e he
  simp only [reset, waitAsync, List.mem_append, List.mem_map, List.mem_cons] at he
  rcases he with (⟨t, _, rfl⟩ | h) | ⟨s, _, rfl⟩
  · rfl
  · rcases h with rfl | rfl | rfl | rfl | h
    · rfl
    · rfl
    · rfl
    · rfl
    · simp at h
  · rfl

end aiContext

/-- C4: if `load(p)` returns true, an immediately following `load(p)` returns true as
well, performs no effect at all (neither open is attempted, `reset` is not called) and
leaves every field of the session unchanged, whatever the readers would do. -/
theorem load_twice_same_path {Config TS : Type} (plat : Platform) (rd rd2 : ArchiveReaders)
    (mk mk2 : IArchive → Nat → TS) (in_path : Option String) (ctx : aiContext Config TS)
    (h : (ctx.load plat rd mk in_path).out = Outcome.returned true) :
    (ctx.load plat rd mk in_path).ctx.load plat rd2 mk2 in_path
      = ⟨Outcome.returned true, (ctx.load plat rd mk in_path).ctx, []⟩ := by
  have hs := aiContext.load_true_state plat rd mk in_path ctx h
  cases in_path with
  | none => simp [aiContext.load_null] at h
  | some p => exact aiContext.load_fast plat rd2 mk2 p _ hs

/-- Witness for C4: the scene is loaded, then loaded again while no reader would open it. -/
theorem load_twice_same_path_witness :
    (Example.fresh.load Platform.linux Example.ogawaReaders Example.createSampling
        (some "/tmp/scene.abc")).out = Outcome.returned true
      ∧ (Example.fresh.load Platform.linux Example.ogawaReaders Example.createSampling
          (some "/tmp/scene.abc")).ctx.load Platform.linux Example.failingReaders
            Example.createSampling (some "/tmp/scene.abc")
        = ⟨Outcome.returned true,
            (Example.fresh.load Platform.linux Example.ogawaReaders Example.createSampling
              (some "/tmp/scene.abc")).ctx, []⟩ :=
  ⟨by decide,
   load_twice_same_path Platform.linux Example.ogawaReaders Example.failingReaders
     Example.createSampling Example.createSampling (some "/tmp/scene.abc") Example.fresh
     (by decide)⟩

/-- C5: on every session reached from a newly constructed one by public calls,
`load("")` returns false, performs exactly the effects of `reset` (no stream is created
and no reader is called) and leaves the session Empty with no pending task. -/
theorem load_empty_string {Config TS : Type} (plat : Platform) (config : Config) (uid : Int)
    (ops : List (Op Config TS)) (rd : ArchiveReaders) (mk : IArchive → Nat → TS) :
    ((runOps plat ops (aiContext.new config uid)).load plat rd mk (some "")).out
        = Outcome.returned false
      ∧ ((runOps plat ops (aiContext.new config uid)).load plat rd mk (some "")).ctx.isEmpty
          = true
      ∧ ((runOps plat ops (aiContext.new config uid)).load plat rd mk
          (some "")).ctx.m_async_tasks = []
      ∧ ((runOps plat ops (aiContext.new config uid)).load plat rd mk (some "")).trace
          = (runOps plat ops (aiContext.new config uid)).reset.2
      ∧ ∀ e ∈ ((runOps plat ops (aiContext.new config uid)).load plat rd mk
          (some "")).trace, e.isOpenAttempt = false := by
  have hinv := aiContext.runOps_inv plat ops (aiContext.new config uid)
    (Or.inl (aiContext.new_isEmpty config uid))
  have hslow : ¬ (NormalizePath plat (some "") = (runOps plat ops
      (aiContext.new config uid : aiContext Config TS)).m_path
      ∧ (runOps plat ops (aiContext.new config uid : aiContext Config TS)).m_archive.isSome
        = true) := by
    rintro ⟨h1, h2⟩
    rw [(NormalizePath_eq_empty_iff plat "").2 rfl] at h1
    exact (hinv.path_iff.2 h2) h1.symm
  rw [aiContext.load_empty_path plat rd mk "" _ hslow rfl]
  exact ⟨rfl, aiContext.reset_isEmpty _, aiContext.reset_async_tasks _, rfl,
    aiContext.reset_trace_no_open _⟩

/-- C6 (as stated, refuted): a `load` of a damaged file raised during the materialization
and left the session holding the path and the archive; the file is then repaired, so that
the stream based tier opens the scene and its child enumeration does not fail. `load` of
the path returns true by the fast path, but the session has no time sampling although
the archive it holds reports one and the scene reports two. -/
theorem load_fast_path_stale_session :
    ("/tmp/scene.abc" ≠ "")
      ∧ (Example.ogawaReaders.firstSuccess Platform.linux "/tmp/scene.abc").map
          (fun a => (a.getTop.readable, a.getNumTimeSamplings)) = some (true, 2)
      ∧ (Example.stale.load Platform.linux Example.ogawaReaders Example.createSampling
          (some "/tmp/scene.abc")).out = Outcome.returned true
      ∧ (Example.stale.load Platform.linux Example.ogawaReaders Example.createSampling
          (some "/tmp/scene.abc")).ctx.getTimeSamplingCount = 0
      ∧ (Example.stale.load Platform.linux Example.ogawaReaders Example.createSampling
          (some "/tmp/scene.abc")).ctx.getArchive.map IArchive.getNumTimeSamplings = some 1 := by
  decide

/-- C6 (amended): for every non-empty path for which one of the two tiers opens an archive
whose child enumeration does not fail, on every session whose call reaches the opener (it
does not already hold an open archive under the normalized path), `load` returns true and
afterwards `getPath()` is the normalized path, the archive handle is that archive, the top
node is present and wraps the archive's top object, and the time sampling list has exactly
as many entries as the archive reports, entry `i` built from archive index `i`. -/
theorem load_success {Config TS : Type} (plat : Platform) (rd : ArchiveReaders)
    (mk : IArchive → Nat → TS) (p : String) (ctx : aiContext Config TS) (a : IArchive)
    (hp : p ≠ "")
    (hslow : ¬ (NormalizePath plat (some p) = ctx.m_path ∧ ctx.m_archive.isSome = true))
    (hopen : rd.firstSuccess plat p = some a)
    (hread : a.getTop.readable = true) :
    (ctx.load plat rd mk (some p)).out = Outcome.returned true
      ∧ (ctx.load plat rd mk (some p)).ctx.getPath = NormalizePath plat (some p)
      ∧ (ctx.load plat rd mk (some p)).ctx.getArchive = some a
      ∧ (∃ top, (ctx.load plat rd mk (some p)).ctx.getTopObject = some top
            ∧ top.getAbcObject = a.getTop)
      ∧ (ctx.load plat rd mk (some p)).ctx.getTimeSamplingCount = a.getNumTimeSamplings
      ∧ (∀ i, i < a.getNumTimeSamplings →
          (ctx.load plat rd mk (some p)).ctx.m_timesamplings[i]? = some (mk a i))
      ∧ (ctx.load plat rd mk (some p)).ctx.isLoaded = true := by
  have hn : ¬ NormalizePath plat (some p) = "" := fun hn =>
    hp ((NormalizePath_eq_empty_iff plat p).1 hn)
  have htop : a.getTop.mirror.getAbcObject = a.getTop := by
    cases a.getTop with
    | mk n f s => rfl
  have fin : ∀ ss : List ifstream,
      let c : aiContext Config TS :=
        { ctx.opened (NormalizePath plat (some p)) ss a with
            m_top_node := some a.getTop.mirror,
            m_timesamplings := (List.range a.getNumTimeSamplings).map (mk a) }
      c.getPath = NormalizePath plat (some p)
      ∧ c.getArchive = some a
      ∧ (∃ top, c.getTopObject = some top ∧ top.getAbcObject = a.getTop)
      ∧ c.getTimeSamplingCount = a.getNumTimeSamplings
      ∧ (∀ i, i < a.getNumTimeSamplings → c.m_timesamplings[i]? = some (mk a i))
      ∧ c.isLoaded = true := by
    intro ss
    refine ⟨rfl, rfl, ⟨_, rfl, htop⟩, ?_, ?_, ?_⟩
    · simp [aiContext.getTimeSamplingCount]
    · intro i hi
      simp [List.getElem?_map, List.getElem?_range hi]
    · simp [aiContext.isLoaded_iff, aiContext.opened, hn]
  rcases aiContext.load_slow plat rd mk p ctx hslow hp with
    ⟨b, _, hs, he⟩ | ⟨e, b, _, _, hs, he⟩ | ⟨e, e2, _, _, hs, _⟩
  · rw [hopen] at hs
    cases hs
    rw [he, aiContext.materialize_readable mk ctx _ _ a hread]
    exact ⟨rfl, fin _⟩
  · rw [hopen] at hs
    cases hs
    rw [he, aiContext.materialize_readable mk ctx _ _ a hread]
    exact ⟨rfl, fin _⟩
  · rw [hopen] at hs
    cases hs

/-- Witness for C6: a newly constructed session loads the scene through the second tier. -/
theorem load_success_witness :
    (Example.fresh.load Platform.windows Example.hdf5Readers Example.createSampling
        (some "C:\\Scenes\\A.abc")).out = Outcome.returned true
      ∧ (Example.fresh.load Platform.windows Example.hdf5Readers Example.createSampling
          (some "C:\\Scenes\\A.abc")).ctx.getPath = "c:/scenes/a.abc"
      ∧ (Example.fresh.load Platform.windows Example.hdf5Readers Example.createSampling
          (some "C:\\Scenes\\A.abc")).ctx.getTimeSamplingCount = 2 :=
  have h := load_success Platform.windows Example.hdf5Readers Example.createSampling
    "C:\\Scenes\\A.abc" Example.fresh Example.scene (by decide) (by decide) rfl rfl
  ⟨h.1, h.2.1.trans (by decide), h.2.2.2.2.1⟩

/-! ## Claims about the tree, the time range and the async barrier -/

/-- C7: for every archive object tree whose child enumeration succeeds,
`gatherNodesRecursive` on the root node ends without exception and leaves the node tree
that mirrors the archive tree (one node per object, children in native order); the nodes
are constructed in depth-first pre-order, the nodes of the tree wrap the root followed by
its descendants in that order, and the number of non-root nodes equals the number of
non-root archive objects. -/
theorem gatherNodesRecursive_mirrors_archive (abc : abcObject) (h : abc.readable = true) :
    gatherNodesRecursive (aiObject.mk abc []) = ⟨abc.mirror, false, abc.descendants⟩
      ∧ (gatherNodesRecursive (aiObject.mk abc [])).node.eachNode.map aiObject.getAbcObject
          = abc :: abc.descendants
      ∧ (gatherNodesRecursive (aiObject.mk abc [])).node.eachNode.length - 1
          = abc.descendants.length := by
  have h1 := gatherNodesRecursive_readable abc h
  have h2 := eachNode_mirror abc
  have h3 : abc.mirror.eachNode.length = (abc :: abc.descendants).length := by
    rw [← h2, List.length_map]
  rw [h1]
  exact ⟨rfl, h2, by simp [h3]⟩

/-- Witness for C7: the scene's root with its three nested objects. -/
theorem gatherNodesRecursive_mirrors_archive_witness :
    (gatherNodesRecursive (aiObject.mk Example.sceneTop [])).raised = false
      ∧ (gatherNodesRecursive (aiObject.mk Example.sceneTop [])).node.eachNode.length - 1 = 3 :=
  have h := gatherNodesRecursive_mirrors_archive Example.sceneTop (by decide)
  ⟨congrArg Gathered.raised h.1, h.2.2.trans (by decide)⟩

namespace aiContext

variable {Config TS : Type}

theorem stdMin_eq_min {T : Type} [LinearOrder T] (a b : T) : stdMin a b = min a b := by
  unfold stdMin
  split
  · rename_i h; exact (min_eq_right (le_of_lt h)).symm
  · rename_i h; exact (min_eq_left (not_lt.1 h)).symm

theorem stdMax_eq_max {T : Type} [LinearOrder T] (a b : T) : stdMax a b = max a b := by
  unfold stdMax
  split
  · rename_i h; exact (max_eq_right (le_of_lt h)).symm
  · rename_i h; exact (max_eq_left (not_lt.1 h)).symm

theorem getTimeRangeFrom_spec {T : Type} [LinearOrder T] (range : TS → T × T) :
    ∀ (rest : List TS) (i : Nat) (acc : T × T), 2 ≤ i →
      ((getTimeRangeFrom range i rest acc).1 ≤ acc.1
        ∧ (∀ t ∈ rest, (getTimeRangeFrom range i rest acc).1 ≤ (range t).1)
        ∧ ((getTimeRangeFrom range i rest acc).1 = acc.1
            ∨ ∃ t ∈ rest, (range t).1 = (getTimeRangeFrom range i rest acc).1))
      ∧ (acc.2 ≤ (getTimeRangeFrom range i rest acc).2
        ∧ (∀ t ∈ rest, (range t).2 ≤ (getTimeRangeFrom range i rest acc).2)
        ∧ ((getTimeRangeFrom range i rest acc).2 = acc.2
            ∨ ∃ t ∈ rest, (range t).2 = (getTimeRangeFrom range i rest acc).2))
  | [], _, _, _ => by simp [getTimeRangeFrom]
  | t :: rest, i, acc, hi => by
    have hne : ¬ i = 1 := by omega
    have ih := getTimeRangeFrom_spec range rest (i + 1)
      (stdMin acc.1 (range t).1, stdMax acc.2 (range t).2) (by omega)
    simp only [getTimeRangeFrom, if_neg hne]
    simp only [stdMin_eq_min, stdMax_eq_max] at ih ⊢
    obtain ⟨⟨a1, a2, a3⟩, b1, b2, b3⟩ := ih
    refine ⟨⟨le_trans a1 (min_le_left _ _), ?_, ?_⟩, le_trans (le_max_left _ _) b1, ?_, ?_⟩
    · intro u hu
      rcases List.mem_cons.1 hu with rfl | hu
      · exact le_trans a1 (min_le_right _ _)
      · exact a2 u hu
    · rcases a3 with a3 | ⟨u, hu, hu2⟩
      · rcases min_choice acc.1 (range t).1 with hm | hm
        · left; rw [a3, hm]
        · right; exact ⟨t, List.mem_cons_self _ _, by rw [a3, hm]⟩
      · right; exact ⟨u, List.mem_cons_of_mem _ hu, hu2⟩
    · intro u hu
      rcases List.mem_cons.1 hu with rfl | hu
      · exact le_trans (le_max_right _ _) b1
      · exact b2 u hu
    · rcases b3 with b3 | ⟨u, hu, hu2⟩
      · rcases max_choice acc.2 (range t).2 with hm | hm
        · left; rw [b3, hm]
        · right; exact ⟨t, List.mem_cons_self _ _, by rw [b3, hm]⟩
      · right; exact ⟨u, List.mem_cons_of_mem _ hu, hu2⟩

end aiContext

/-- C8: with fewer than two time samplings `getTimeRange` gives `(0, 0)`; with at least
two, `begin` is the least of the range begins and `end` the greatest of the range ends of
the samplings at indices `1..N-1`; the sampling at index 0 does not influence the result. -/
theorem getTimeRange_spec {Config TS T : Type} [LinearOrder T] [Zero T]
    (range : TS → T × T) (ctx : aiContext Config TS) :
    (ctx.getTimeSamplingCount ≤ 1 → ctx.getTimeRange range = (0, 0))
      ∧ (2 ≤ ctx.getTimeSamplingCount →
          IsLeast {x | ∃ t ∈ ctx.m_timesamplings.drop 1, (range t).1 = x}
              (ctx.getTimeRange range).1
            ∧ IsGreatest {x | ∃ t ∈ ctx.m_timesamplings.drop 1, (range t).2 = x}
              (ctx.getTimeRange range).2)
      ∧ (∀ (t0 t0' : TS) (rest : List TS), ctx.m_timesamplings = t0 :: rest →
          aiContext.getTimeRange range { ctx with m_timesamplings := t0' :: rest }
            = ctx.getTimeRange range) := by
  refine ⟨?_, ?_, ?_⟩
  · intro h
    unfold aiContext.getTimeSamplingCount at h
    have hd : ctx.m_timesamplings.drop 1 = [] := by
      rw [List.drop_eq_nil_iff]; exact h
    simp [aiContext.getTimeRange, hd, aiContext.getTimeRangeFrom]
  · intro h
    unfold aiContext.getTimeSamplingCount at h
    obtain ⟨t0, t1, rest, hts⟩ : ∃ t0 t1 rest, ctx.m_timesamplings = t0 :: t1 :: rest := by
      match hm : ctx.m_timesamplings, h with
      | t0 :: t1 :: rest, _ => exact ⟨t0, t1, rest, rfl⟩
      | [_], h => simp [hm] at h
      | [], h => simp [hm] at h
    have hr : ctx.getTimeRange range
        = aiContext.getTimeRangeFrom range 2 rest (range t1) := by
      simp [aiContext.getTimeRange, hts, aiContext.getTimeRangeFrom]
    obtain ⟨⟨a1, a2, a3⟩, b1, b2, b3⟩ :=
      aiContext.getTimeRangeFrom_spec range rest 2 (range t1) (le_refl 2)
    rw [hr, hts]
    simp only [List.drop_succ_cons, List.drop_zero]
    constructor
    · constructor
      · rcases a3 with a3 | ⟨u, hu, hu2⟩
        · exact ⟨t1, List.mem_cons_self _ _, a3.symm⟩
        · exact ⟨u, List.mem_cons_of_mem _ hu, hu2⟩
      · rintro x ⟨u, hu, rfl⟩
        rcases List.mem_cons.1 hu with rfl | hu
        · exact a1
        · exact a2 u hu
    · constructor
      · rcases b3 with b3 | ⟨u, hu, hu2⟩
        · exact ⟨t1, List.mem_cons_self _ _, b3.symm⟩
        · exact ⟨u, List.mem_cons_of_mem _ hu, hu2⟩
      · rintro x ⟨u, hu, rfl⟩
        rcases List.mem_cons.1 hu with rfl | hu
        · exact b1
        · exact b2 u hu
  · intro t0 t0' rest h
    simp [aiContext.getTimeRange, h]

/-- Witness for C8: with the ranges (-100, 100), (5, 50), (1, 10), (-2, 7) the result is
(-2, 50), the least begin and the greatest end of the last three. -/
theorem getTimeRange_spec_witness :
    2 ≤ Example.sampled.getTimeSamplingCount
      ∧ Example.sampled.getTimeRange id = (-2, 50)
      ∧ IsLeast {x | ∃ t ∈ Example.sampled.m_timesamplings.drop 1, (id t).1 = x}
          (Example.sampled.getTimeRange id).1 :=
  ⟨by decide, by decide, ((getTimeRange_spec id Example.sampled).2.1 (by decide)).1⟩

namespace aiContext

variable {Config TS : Type}

theorem reset_trace (ctx : aiContext Config TS) :
    ctx.reset.2 = ctx.m_async_tasks.map Event.wait
      ++ ([Event.resetTopNode, Event.clearTimeSamplings, Event.resetArchive, Event.clearPath]
          ++ ctx.m_streams.map Event.deleteStream) := by
  simp [reset, waitAsync]

/-- In a trace that starts with the joins of `tasks`, every event that is not itself one
of these joins comes after all of them. -/
theorem waits_before {tasks : List aiAsync} {tail pre post : List Event} {e : Event}
    (h : tasks.map Event.wait ++ tail = pre ++ e :: post)
    (he : ∀ t, e ≠ Event.wait t) :
    ∀ t ∈ tasks, Event.wait t ∈ pre := by
  intro t ht
  rcases List.append_eq_append_iff.1 h with ⟨a, ha, _⟩ | ⟨c, hc, hc2⟩
  · rw [ha]
    exact List.mem_append_left _ (List.mem_map_of_mem _ ht)
  · cases c with
    | nil =>
      rw [List.append_nil] at hc
      rw [← hc]
      exact List.mem_map_of_mem _ ht
    | cons x c =>
      have hx : e = x := by
        have := congrArg List.head? hc2
        simpa using this
      have hmem : e ∈ tasks.map Event.wait := by
        rw [hc, hx]
        exact List.mem_append_right _ (List.mem_cons_self _ _)
      rcases List.mem_map.1 hmem with ⟨u, _, hu⟩
      exact absurd hu.symm (he u)

theorem visitNodes_trace (upd : aiObject → List aiAsync) (nodes : List aiObject)
    (ctx : aiContext Config TS) :
    (visitNodes upd nodes ctx).2 =
      nodes.flatMap (fun o => Event.updateSample o :: (upd o).map Event.queueAsync) := by
  induction nodes generalizing ctx with
  | nil => simp [visitNodes]
  | cons o rest ih => simp [visitNodes, ih]

theorem updateSamples_trace {T SS : Type} (sel : T → SS)
    (upd : aiObject → SS → List aiAsync) (time : T) (ctx : aiContext Config TS) :
    (ctx.updateSamples sel upd time).2 =
      ctx.m_async_tasks.map Event.wait
        ++ (ctx.eachNodes.flatMap
              (fun o => Event.updateSample o :: (upd o (sel time)).map Event.queueAsync)
            ++ (if (ctx.eachNodes.flatMap (fun o => upd o (sel time))).isEmpty then []
                else [Event.queue (ctx.eachNodes.flatMap (fun o => upd o (sel time)))])) := by
  simp [updateSamples, visitNodes_trace, visitNodes_frame, waitAsync, eachNodes]

theorem updateSamples_eachNodes {T SS : Type} (sel : T → SS)
    (upd : aiObject → SS → List aiAsync) (time : T) (ctx : aiContext Config TS) :
    (ctx.updateSamples sel upd time).1.eachNodes = ctx.eachNodes := by
  simp [updateSamples_frame, eachNodes]

end aiContext

/-- C9: `reset` first calls `wait()` on every pending task, in queue order, and only then
releases the tree root, the time sampling list, the archive handle, the path and the
streams: at every release event of its trace every pending task has already been
joined. When `reset` returns the queue is empty. -/
theorem reset_joins_before_release {Config TS : Type} (ctx : aiContext Config TS) :
    ctx.reset.2 = ctx.m_async_tasks.map Event.wait
        ++ ([Event.resetTopNode, Event.clearTimeSamplings, Event.resetArchive, Event.clearPath]
            ++ ctx.m_streams.map Event.deleteStream)
      ∧ (∀ (pre post : List Event) (e : Event), ctx.reset.2 = pre ++ e :: post →
          e.isRelease = true → ∀ t ∈ ctx.m_async_tasks, Event.wait t ∈ pre)
      ∧ (∀ t ∈ ctx.m_async_tasks, Event.wait t ∈ ctx.reset.2)
      ∧ ctx.reset.1.m_async_tasks = [] := by
  refine ⟨aiContext.reset_trace ctx, ?_, ?_, aiContext.reset_async_tasks ctx⟩
  · intro pre post e h he
    rw [aiContext.reset_trace] at h
    refine aiContext.waits_before h ?_
    intro t ht
    rw [ht] at he
    simp [Event.isRelease] at he
  · intro t ht
    rw [aiContext.reset_trace]
    exact List.mem_append_left _ (List.mem_map_of_mem _ ht)

/-- C10: in `updateSamples(t1)` followed by `updateSamples(t2)`, every task queued during
the first call is joined before any node's `updateSample` of the second call, the queue is
empty when the synchronous phase of the second call begins, and after each call the queue
holds exactly the tasks queued by the nodes during that call. -/
theorem updateSamples_joins_previous_batch {Config TS T SS : Type} (sel : T → SS)
    (upd1 upd2 : aiObject → SS → List aiAsync) (t1 t2 : T) (ctx : aiContext Config TS) :
    (∀ task, Event.queueAsync task ∈ (ctx.updateSamples sel upd1 t1).2 ↔
        task ∈ (ctx.updateSamples sel upd1 t1).1.m_async_tasks)
      ∧ (∀ task, Event.queueAsync task
            ∈ ((ctx.updateSamples sel upd1 t1).1.updateSamples sel upd2 t2).2 ↔
          task ∈ ((ctx.updateSamples sel upd1 t1).1.updateSamples sel upd2 t2).1.m_async_tasks)
      ∧ (ctx.updateSamples sel upd1 t1).1.m_async_tasks
          = ctx.eachNodes.flatMap (fun o => upd1 o (sel t1))
      ∧ ((ctx.updateSamples sel upd1 t1).1.updateSamples sel upd2 t2).1.m_async_tasks
          = ctx.eachNodes.flatMap (fun o => upd2 o (sel t2))
      ∧ (∀ (pre post : List Event) (node : aiObject),
          ((ctx.updateSamples sel upd1 t1).1.updateSamples sel upd2 t2).2
              = pre ++ Event.updateSample node :: post →
          ∀ task, Event.queueAsync task ∈ (ctx.updateSamples sel upd1 t1).2 →
            Event.wait task ∈ pre)
      ∧ (ctx.updateSamples sel upd1 t1).1.waitAsync.1.m_async_tasks = [] := by
  have hq : ∀ (upd : aiObject → SS → List aiAsync) (t : T) (c : aiContext Config TS)
      (task : aiAsync), Event.queueAsync task ∈ (c.updateSamples sel upd t).2 ↔
        task ∈ (c.updateSamples sel upd t).1.m_async_tasks := by
    intro upd t c task
    rw [aiContext.updateSamples_trace, aiContext.updateSamples_frame]
    simp only [List.mem_append, List.mem_map, List.mem_flatMap, List.mem_cons]
    constructor
    · rintro (⟨u, _, hu⟩ | ⟨o, ho, h | ⟨u, hu, hu2⟩⟩ | h)
      · cases hu
      · cases h
      · cases hu2
        exact ⟨o, ho, hu⟩
      · split at h <;> simp at h
    · rintro ⟨o, ho, h⟩
      exact Or.inr (Or.inl ⟨o, ho, Or.inr ⟨task, h, rfl⟩⟩)
  refine ⟨hq upd1 t1 ctx, hq upd2 t2 _, ?_, ?_, ?_, rfl⟩
  · rw [aiContext.updateSamples_frame]
  · rw [aiContext.updateSamples_frame, aiContext.updateSamples_eachNodes]
  · intro pre post node h task ht
    rw [aiContext.updateSamples_trace] at h
    exact aiContext.waits_before h (by intro t; simp) task ((hq upd1 t1 ctx task).1 ht)

/-! ## Frame of `load` -/

namespace aiContext

variable {Config TS : Type}

/-- The session `load` leaves is the session before, the session after `reset`, or the
session handed to the materialization with a top node and a time sampling list. -/
theorem load_ctx_shape (plat : Platform) (rd : ArchiveReaders) (mk : IArchive → Nat → TS)
    (in_path : Option String) (ctx : aiContext Config TS) :
    (ctx.load plat rd mk in_path).ctx = ctx
      ∨ (ctx.load plat rd mk in_path).ctx = ctx.reset.1
      ∨ ∃ ss a top tsl, (ctx.load plat rd mk in_path).ctx =
          { ctx.opened (NormalizePath plat in_path) ss a with
              m_top_node := some top, m_timesamplings := tsl } := by
  cases in_path with
  | none => exact Or.inl rfl
  | some p =>
    by_cases hf : NormalizePath plat (some p) = ctx.m_path ∧ ctx.m_archive.isSome = true
    · rw [load_fast plat rd mk p ctx hf]
      exact Or.inl rfl
    · by_cases hp : p = ""
      · rw [load_empty_path plat rd mk p ctx hf hp]
        exact Or.inr (Or.inl rfl)
      · rcases load_slow plat rd mk p ctx hf hp with
          ⟨a, _, _, he⟩ | ⟨e, a, _, _, _, he⟩ | ⟨e, e2, _, _, _, he⟩
        · rw [he]
          right; right
          cases hr : a.getTop.readable
          · rw [materialize_unreadable mk ctx _ _ a hr]
            exact ⟨_, a, _, [], rfl⟩
          · rw [materialize_readable mk ctx _ _ a hr]
            exact ⟨_, a, _, _, rfl⟩
        · rw [he]
          right; right
          cases hr : a.getTop.readable
          · rw [materialize_unreadable mk ctx _ _ a hr]
            exact ⟨_, a, _, [], rfl⟩
          · rw [materialize_readable mk ctx _ _ a hr]
            exact ⟨_, a, _, _, rfl⟩
        · rw [he]
          exact Or.inr (Or.inl rfl)

theorem load_config (plat : Platform) (rd : ArchiveReaders) (mk : IArchive → Nat → TS)
    (in_path : Option String) (ctx : aiContext Config TS) :
    (ctx.load plat rd mk in_path).ctx.m_config = ctx.m_config
      ∧ (ctx.load plat rd mk in_path).ctx.m_uid = ctx.m_uid := by
  rcases load_ctx_shape plat rd mk in_path ctx with h | h | ⟨ss, a, top, tsl, h⟩ <;> rw [h]
  · exact ⟨rfl, rfl⟩
  · exact ⟨reset_config ctx, reset_uid ctx⟩
  · exact ⟨reset_config ctx, reset_uid ctx⟩

theorem load_path (plat : Platform) (rd : ArchiveReaders) (mk : IArchive → Nat → TS)
    (in_path : Option String) (ctx : aiContext Config TS) :
    (ctx.load plat rd mk in_path).ctx.m_path = ctx.m_path
      ∨ (ctx.load plat rd mk in_path).ctx.m_path = ""
      ∨ (ctx.load plat rd mk in_path).ctx.m_path = NormalizePath plat in_path := by
  rcases load_ctx_shape plat rd mk in_path ctx with h | h | ⟨ss, a, top, tsl, h⟩ <;> rw [h]
  · exact Or.inl rfl
  · exact Or.inr (Or.inl rfl)
  · exact Or.inr (Or.inr rfl)

end aiContext

/-! ## Claims about `reset`, the configuration and the helpers -/

/-- C11: from every session state whatsoever `reset` leads to the Empty state: no top
node, no time samplings, no valid archive, no owned stream (each stream owned before is
deleted), empty path and empty task queue; `reset` after `reset` gives the same state as
one `reset`. -/
theorem reset_always_empty {Config TS : Type} (ctx : aiContext Config TS) :
    ctx.reset.1.isEmpty = true
      ∧ ctx.reset.1.getTopObject = none
      ∧ ctx.reset.1.getTimeSamplingCount = 0
      ∧ ctx.reset.1.getArchive = none
      ∧ ctx.reset.1.m_streams = []
      ∧ (∀ s ∈ ctx.m_streams, Event.deleteStream s ∈ ctx.reset.2)
      ∧ ctx.reset.1.getPath = ""
      ∧ ctx.reset.1.m_async_tasks = []
      ∧ ctx.reset.1.reset.1 = ctx.reset.1 := by
  refine ⟨aiContext.reset_isEmpty ctx, rfl, rfl, rfl, rfl, ?_, rfl, rfl, rfl⟩
  intro s hs
  rw [aiContext.reset_trace]
  exact List.mem_append_right _ (List.mem_append_right _ (List.mem_map_of_mem _ hs))

/-- C12: `reset`, `load` (any path, also the null pointer, and any outcome of the readers)
and `updateSamples` leave `getConfig()` as it was; after `setConfig(c)` it is `c`; and no
public call changes the id of the session. -/
theorem config_persists {Config TS T SS : Type} (plat : Platform) (rd : ArchiveReaders)
    (mk : IArchive → Nat → TS) (in_path : Option String) (sel : T → SS)
    (upd : aiObject → SS → List aiAsync) (time : T) (c : Config)
    (ctx : aiContext Config TS) :
    ctx.reset.1.getConfig = ctx.getConfig
      ∧ (ctx.load plat rd mk in_path).ctx.getConfig = ctx.getConfig
      ∧ (ctx.updateSamples sel upd time).1.getConfig = ctx.getConfig
      ∧ (ctx.setConfig c).getConfig = c
      ∧ (∀ op : Op Config TS, (op.apply plat ctx).getUid = ctx.getUid)
      ∧ (∀ op : Op Config TS, (∀ c2, op ≠ Op.setConfig c2) →
          (op.apply plat ctx).getConfig = ctx.getConfig) := by
  refine ⟨rfl, (aiContext.load_config plat rd mk in_path ctx).1, ?_, rfl, ?_, ?_⟩
  · rw [aiContext.updateSamples_frame]
    rfl
  · intro op
    cases op with
    | load rd2 mk2 p => exact (aiContext.load_config plat rd2 mk2 p ctx).2
    | reset => rfl
    | updateSamples T2 SS2 sel2 upd2 time2 =>
      simp only [Op.apply, aiContext.updateSamples_frame]
      rfl
    | setConfig c2 => rfl
    | queueAsync task => rfl
    | waitAsync => rfl
  · intro op hop
    cases op with
    | load rd2 mk2 p => exact (aiContext.load_config plat rd2 mk2 p ctx).1
    | reset => rfl
    | updateSamples T2 SS2 sel2 upd2 time2 =>
      simp only [Op.apply, aiContext.updateSamples_frame]
      rfl
    | setConfig c2 => exact absurd rfl (hop c2)
    | queueAsync task => rfl
    | waitAsync => rfl

theorem getTimeSamplingIndexFrom_first (ts : TimeSamplingPtr) :
    ∀ (l : List TimeSamplingPtr) (i : Nat),
      (ts ∉ l → getTimeSamplingIndexFrom ts i l = 0)
        ∧ (∀ n, l[n]? = some ts → (∀ j, j < n → l[j]? ≠ some ts) →
            getTimeSamplingIndexFrom ts i l = ((i + n : Nat) : Int))
  | [], i => by simp [getTimeSamplingIndexFrom]
  | t :: rest, i => by
    have ih := getTimeSamplingIndexFrom_first ts rest (i + 1)
    by_cases h : t = ts
    · subst h
      refine ⟨by simp, ?_⟩
      intro n _ hmin
      cases n with
      | zero => simp [getTimeSamplingIndexFrom]
      | succ m => exact absurd (by simp) (hmin 0 (Nat.succ_pos m))
    · refine ⟨?_, ?_⟩
      · intro hn
        have hr : ts ∉ rest := fun hr => hn (List.mem_cons_of_mem _ hr)
        simp [getTimeSamplingIndexFrom, h, ih.1 hr]
      · intro n hn hmin
        cases n with
        | zero => simp at hn; exact absurd hn h
        | succ m =>
          have h1 : rest[m]? = some ts := by simpa using hn
          have h2 : ∀ j, j < m → rest[j]? ≠ some ts := by
            intro j hj
            have := hmin (j + 1) (Nat.succ_lt_succ hj)
            simpa using this
          simp only [getTimeSamplingIndexFrom, if_neg h, ih.2 m h1 h2]
          congr 1
          omega

theorem getTimeSamplingIndexFrom_range (ts : TimeSamplingPtr) :
    ∀ (l : List TimeSamplingPtr) (i : Nat),
      getTimeSamplingIndexFrom ts i l = 0
        ∨ ((i : Int) ≤ getTimeSamplingIndexFrom ts i l
            ∧ getTimeSamplingIndexFrom ts i l < ((i + l.length : Nat) : Int))
  | [], _ => by simp [getTimeSamplingIndexFrom]
  | t :: rest, i => by
    by_cases h : t = ts
    · right
      simp only [getTimeSamplingIndexFrom, if_pos h, List.length_cons]
      constructor
      · exact le_refl _
      · exact_mod_cast (by omega : i < i + (rest.length + 1))
    · rcases getTimeSamplingIndexFrom_range ts rest (i + 1) with h0 | ⟨h1, h2⟩
      · left
        simp [getTimeSamplingIndexFrom, h, h0]
      · right
        simp only [getTimeSamplingIndexFrom, if_neg h, List.length_cons]
        constructor
        · have : (i : Int) ≤ ((i + 1 : Nat) : Int) := by exact_mod_cast Nat.le_succ i
          exact le_trans this h1
        · have : i + 1 + rest.length = i + (rest.length + 1) := by omega
          rw [← this]
          exact h2

/-- C16: on a session with a valid archive, `getTimeSamplingIndex(d)` returns the smallest
index whose archive sampling is the pointer `d`, and `0` when no sampling is `d` (also for
an empty list); the result is never negative and is below `max(N, 1)`. -/
theorem getTimeSamplingIndex_spec {Config TS : Type} (ctx : aiContext Config TS)
    (a : IArchive) (d : TimeSamplingPtr) (h : ctx.getArchive = some a) :
    ∃ r : Int, ctx.getTimeSamplingIndex d = some r
      ∧ (∀ i : Nat, a.timeSamplings[i]? = some d →
          (∀ j : Nat, j < i → a.timeSamplings[j]? ≠ some d) → r = (i : Int))
      ∧ ((∀ i : Nat, a.timeSamplings[i]? ≠ some d) → r = 0)
      ∧ 0 ≤ r
      ∧ r < max (a.getNumTimeSamplings : Int) 1 := by
  unfold aiContext.getArchive at h
  refine ⟨getTimeSamplingIndexFrom d 0 a.timeSamplings, ?_, ?_, ?_, ?_, ?_⟩
  · simp [aiContext.getTimeSamplingIndex, h]
  · intro i hi hmin
    have := (getTimeSamplingIndexFrom_first d a.timeSamplings 0).2 i hi hmin
    simpa using this
  · intro hno
    apply (getTimeSamplingIndexFrom_first d a.timeSamplings 0).1
    intro hm
    obtain ⟨n, hn⟩ := List.mem_iff_getElem?.1 hm
    exact hno n hn
  · rcases getTimeSamplingIndexFrom_range d a.timeSamplings 0 with h0 | ⟨h1, _⟩
    · rw [h0]
    · exact_mod_cast h1
  · rcases getTimeSamplingIndexFrom_range d a.timeSamplings 0 with h0 | ⟨_, h2⟩
    · rw [h0]
      exact lt_max_of_lt_right Int.one_pos
    · apply lt_max_of_lt_left
      simpa [IArchive.getNumTimeSamplings] using h2

/-- Witness for C16: the samplings are at 100, 200, 200; the index of 200 is 1. -/
theorem getTimeSamplingIndex_spec_witness :
    Example.indexed.getTimeSamplingIndex 200 = some 1
      ∧ ∃ r : Int, Example.indexed.getTimeSamplingIndex 200 = some r ∧ 0 ≤ r :=
  have h := getTimeSamplingIndex_spec Example.indexed ⟨Example.sceneTop, [100, 200, 200]⟩ 200
    rfl
  ⟨by decide, h.imp fun _ hr => ⟨hr.1, hr.2.2.2.1⟩⟩

/-! ## Path normalization -/


theorem normalizeChar_eq_canonicalChar (c : Char) : normalizeChar c = canonicalChar c := by
  unfold normalizeChar canonicalChar Char.toLower
  by_cases h : c = '\\'
  · simp [h]
  · simp only [if_neg h]
    have hA : ('A' ≤ c) ↔ 65 ≤ c.toNat := by
      rw [Char.le_def]
      rfl
    have hZ : (c ≤ 'Z') ↔ c.toNat ≤ 90 := by
      rw [Char.le_def]
      rfl
    by_cases h2 : 'A' ≤ c ∧ c ≤ 'Z'
    · have h3 : c.toNat ≥ 65 ∧ c.toNat ≤ 90 := ⟨hA.1 h2.1, hZ.1 h2.2⟩
      rw [if_pos h2]
      simp only [h3, ge_iff_le, and_self, if_true]
      congr 1
      have : 'a'.toNat = 97 := rfl
      have : 'A'.toNat = 65 := rfl
      omega
    · have h3 : ¬ (c.toNat ≥ 65 ∧ c.toNat ≤ 90) := fun h3 => h2 ⟨hA.2 h3.1, hZ.2 h3.2⟩
      rw [if_neg h2]
      simp only [h3, if_false]

theorem canonicalChar_idem (c : Char) : canonicalChar (canonicalChar c) = canonicalChar c := by
  unfold canonicalChar
  by_cases h : c = '\\'
  · subst h; decide
  · simp only [if_neg h]
    by_cases hu : c.toNat ≥ 65 ∧ c.toNat ≤ 90
    · have hc : c = Char.ofNat c.toNat := (Char.ofNat_toNat c).symm
      obtain ⟨h1, h2⟩ := hu
      generalize c.toNat = n at hc h1 h2
      subst hc
      interval_cases n <;> decide
    · have hl : c.toLower = c := by
        unfold Char.toLower
        simp only [hu, if_false]
      rw [hl, if_neg h, hl]

theorem NormalizePath_windows_data (s : String) :
    (NormalizePath Platform.windows (some s)).data = s.data.map canonicalChar := by
  have h : normalizeChar = canonicalChar := funext normalizeChar_eq_canonicalChar
  simp [NormalizePath, S, L, h]

theorem NormalizePath_idem (plat : Platform) (in_path : Option String) :
    NormalizePath plat (some (NormalizePath plat in_path)) = NormalizePath plat in_path := by
  cases in_path with
  | none => cases plat <;> rfl
  | some s =>
    cases plat with
    | windows =>
      have h : normalizeChar = canonicalChar := funext normalizeChar_eq_canonicalChar
      have hc : canonicalChar ∘ canonicalChar = canonicalChar := funext canonicalChar_idem
      simp [NormalizePath, S, L, h, hc]
    | linux => rfl
    | other => rfl

/-- C17: with `_WIN32`, `NormalizePath(s)` has the length of `s` and its `i`-th character is
a slash where `s` has a backslash, the lowercase letter where `s` has an ASCII capital, and
the character of `s` otherwise; in the other variants `NormalizePath(s) = s`; a null input
gives the empty string in every variant. -/
theorem NormalizePath_spec (s : String) :
    (NormalizePath Platform.windows (some s)).length = s.length
      ∧ (NormalizePath Platform.windows (some s)).data = s.data.map canonicalChar
      ∧ (∀ (i : Nat) (c : Char), s.data[i]? = some c →
          (NormalizePath Platform.windows (some s)).data[i]? =
            some (if c = '\\' then '/'
                  else if 65 ≤ c.toNat ∧ c.toNat ≤ 90 then Char.ofNat (c.toNat + 32)
                  else c))
      ∧ NormalizePath Platform.linux (some s) = s
      ∧ NormalizePath Platform.other (some s) = s
      ∧ ∀ plat, NormalizePath plat none = "" := by
  refine ⟨?_, NormalizePath_windows_data s, ?_, rfl, rfl, ?_⟩
  · show (NormalizePath Platform.windows (some s)).data.length = s.data.length
    rw [NormalizePath_windows_data, List.length_map]
  · intro i c hc
    rw [NormalizePath_windows_data, List.getElem?_map, hc]
    simp only [Option.map_some', canonicalChar, Char.toLower]
  · intro plat
    cases plat <;> rfl

/-! ## The open tiers -/

namespace aiContext

variable {Config TS : Type}

theorem materialize_trace_quiet (mk : IArchive → Nat → TS) (ctx : aiContext Config TS) :
    ∀ e ∈ (materialize mk ctx).trace, e.isOpenAttempt = false := by
  intro e he
  unfold materialize at he
  cases h : ctx.m_archive with
  | none =>
    rw [h] at he
    exact reset_trace_no_open ctx e he
  | some a =>
    rw [h] at he
    simp only at he
    split at he
    · simp only [List.mem_cons, List.mem_map] at he
      rcases he with rfl | ⟨x, _, rfl⟩ <;> rfl
    · simp only [List.mem_cons, List.mem_map, List.mem_append, List.mem_singleton,
        List.cons_append] at he
      rcases he with rfl | ⟨x, _, rfl⟩ | rfl | he
      · rfl
      · rfl
      · rfl
      · cases he

/-- If an event satisfying `p` splits a trace whose only such event is `x`, the split is
at `x`. -/
theorem unique_split {p : Event → Bool} {A B pre post : List Event} {x y : Event}
    (hA : ∀ e ∈ A, p e = false) (hB : ∀ e ∈ B, p e = false) (hy : p y = true)
    (h : A ++ x :: B = pre ++ y :: post) : pre = A ∧ y = x := by
  induction A generalizing pre with
  | nil =>
    cases pre with
    | nil =>
      simp only [List.nil_append, List.cons.injEq] at h
      exact ⟨rfl, h.1.symm⟩
    | cons z pre2 =>
      simp only [List.nil_append, List.cons_append, List.cons.injEq] at h
      have hm : y ∈ B := by rw [h.2]; simp
      rw [hB y hm] at hy
      cases hy
  | cons a A2 ih =>
    cases pre with
    | nil =>
      simp only [List.nil_append, List.cons_append, List.cons.injEq] at h
      rw [← h.1, hA a (List.mem_cons_self _ _)] at hy
      cases hy
    | cons z pre2 =>
      simp only [List.cons_append, List.cons.injEq] at h
      obtain ⟨h1, h2⟩ := ih (fun e he => hA e (List.mem_cons_of_mem _ he)) h.2
      exact ⟨by rw [h.1, h1], h2⟩

/-- The five ways through `load`, with the trace and the streams and archive left. -/
theorem load_trace_cases (plat : Platform) (rd : ArchiveReaders) (mk : IArchive → Nat → TS)
    (in_path : Option String) (ctx : aiContext Config TS) :
    ((in_path = none ∨ ∃ p, in_path = some p ∧
          NormalizePath plat (some p) = ctx.m_path ∧ ctx.m_archive.isSome = true)
        ∧ (ctx.load plat rd mk in_path).trace = [])
      ∨ (∃ p, in_path = some p ∧ p = ""
          ∧ ¬ (NormalizePath plat (some p) = ctx.m_path ∧ ctx.m_archive.isSome = true)
          ∧ (ctx.load plat rd mk in_path).trace = ctx.reset.2)
      ∨ (∃ p a M, in_path = some p ∧ p ≠ ""
          ∧ ¬ (NormalizePath plat (some p) = ctx.m_path ∧ ctx.m_archive.isSome = true)
          ∧ rd.ogawa [newStream plat p (NormalizePath plat (some p))]
              (NormalizePath plat (some p)) = Except.ok a
          ∧ (∀ e ∈ M, e.isOpenAttempt = false)
          ∧ (ctx.load plat rd mk in_path).trace =
              (ctx.reset.2 ++ [Event.newStream (newStream plat p (NormalizePath plat (some p)))])
                ++ Event.readOgawa [newStream plat p (NormalizePath plat (some p))]
                    (NormalizePath plat (some p)) :: M
          ∧ (ctx.load plat rd mk in_path).ctx.m_streams
              = [newStream plat p (NormalizePath plat (some p))]
          ∧ (ctx.load plat rd mk in_path).ctx.m_archive = some a)
      ∨ (∃ p e M, in_path = some p ∧ p ≠ ""
          ∧ ¬ (NormalizePath plat (some p) = ctx.m_path ∧ ctx.m_archive.isSome = true)
          ∧ rd.ogawa [newStream plat p (NormalizePath plat (some p))]
              (NormalizePath plat (some p)) = Except.error e
          ∧ (∀ e ∈ M, e.isOpenAttempt = false)
          ∧ (ctx.load plat rd mk in_path).trace =
              (ctx.reset.2 ++ [Event.newStream (newStream plat p (NormalizePath plat (some p)))])
                ++ Event.readOgawa [newStream plat p (NormalizePath plat (some p))]
                    (NormalizePath plat (some p))
                  :: Event.deleteStream (newStream plat p (NormalizePath plat (some p)))
                  :: Event.readHDF5 (NormalizePath plat (some p)) :: M
          ∧ (ctx.load plat rd mk in_path).ctx.m_streams = []
          ∧ (ctx.load plat rd mk in_path).ctx.m_archive
              = (rd.hdf5 (NormalizePath plat (some p))).toOption) := by
  cases in_path with
  | none => exact Or.inl ⟨Or.inl rfl, rfl⟩
  | some p =>
    by_cases hf : NormalizePath plat (some p) = ctx.m_path ∧ ctx.m_archive.isSome = true
    · rw [load_fast plat rd mk p ctx hf]
      exact Or.inl ⟨Or.inr ⟨p, rfl, hf⟩, rfl⟩
    · by_cases hp : p = ""
      · rw [load_empty_path plat rd mk p ctx hf hp]
        exact Or.inr (Or.inl ⟨p, rfl, hp, hf, rfl⟩)
      · rcases load_slow plat rd mk p ctx hf hp with
          ⟨a, h1, _, he⟩ | ⟨e, a, h1, h2, _, he⟩ | ⟨e, e2, h1, h2, _, he⟩
        · refine Or.inr (Or.inr (Or.inl ⟨p, a,
            (materialize mk (ctx.opened (NormalizePath plat (some p))
              [newStream plat p (NormalizePath plat (some p))] a)).trace, rfl, hp, hf, h1,
            materialize_trace_quiet mk _, ?_, ?_, ?_⟩))
          · rw [he]; simp
          · rw [he]
            cases hr : a.getTop.readable
            · rw [materialize_unreadable mk ctx _ _ a hr]; rfl
            · rw [materialize_readable mk ctx _ _ a hr]; rfl
          · rw [he]
            cases hr : a.getTop.readable
            · rw [materialize_unreadable mk ctx _ _ a hr]; rfl
            · rw [materialize_readable mk ctx _ _ a hr]; rfl
        · refine Or.inr (Or.inr (Or.inr ⟨p, e,
            (materialize mk (ctx.opened (NormalizePath plat (some p)) [] a)).trace,
            rfl, hp, hf, h1, materialize_trace_quiet mk _, ?_, ?_, ?_⟩))
          · rw [he]; simp
          · rw [he]
            cases hr : a.getTop.readable
            · rw [materialize_unreadable mk ctx _ _ a hr]; rfl
            · rw [materialize_readable mk ctx _ _ a hr]; rfl
          · rw [he, h2]
            cases hr : a.getTop.readable
            · rw [materialize_unreadable mk ctx _ _ a hr]; rfl
            · rw [materialize_readable mk ctx _ _ a hr]; rfl
        · refine Or.inr (Or.inr (Or.inr ⟨p, e, [Event.resetTopNode, Event.clearTimeSamplings,
            Event.resetArchive, Event.clearPath], rfl, hp, hf, h1, ?_, ?_, ?_, ?_⟩))
          · intro x hx
            simp only [List.mem_cons, List.mem_singleton, List.not_mem_nil, or_false] at hx
            rcases hx with rfl | rfl | rfl | rfl <;> rfl
          · rw [he]; simp
          · rw [he]; rfl
          · rw [he, h2]; rfl

theorem countP_quiet {p : Event → Bool} (hp : ∀ e, p e = true → e.isOpenAttempt = true)
    {M : List Event} (hM : ∀ e ∈ M, e.isOpenAttempt = false) : M.countP p = 0 := by
  rw [List.countP_eq_zero]
  intro e he hpe
  have := hp e hpe
  rw [hM e he] at this
  cases this

theorem quiet_of {p : Event → Bool} (hp : ∀ e, p e = true → e.isOpenAttempt = true)
    {M : List Event} (hM : ∀ e ∈ M, e.isOpenAttempt = false) : ∀ e ∈ M, p e = false := by
  intro e he
  cases h : p e with
  | false => rfl
  | true =>
    have := hp e h
    rw [hM e he] at this
    cases this

theorem isReadOgawa_open : ∀ e : Event, e.isReadOgawa = true → e.isOpenAttempt = true := by
  intro e h
  cases e <;> simp [Event.isReadOgawa] at h
  rfl

theorem isReadHDF5_open : ∀ e : Event, e.isReadHDF5 = true → e.isOpenAttempt = true := by
  intro e h
  cases e <;> simp [Event.isReadHDF5] at h
  rfl

end aiContext

namespace aiContext

variable {Config TS : Type}

theorem countP_all_false {p : Event → Bool} {M : List Event} (hM : ∀ e ∈ M, p e = false) :
    M.countP p = 0 := by
  rw [List.countP_eq_zero]
  intro e he hpe
  rw [hM e he] at hpe
  cases hpe

theorem countP_split {p : Event → Bool} {A B : List Event} {x : Event}
    (hA : ∀ e ∈ A, p e = false) (hB : ∀ e ∈ B, p e = false) (hx : p x = true) :
    (A ++ x :: B).countP p = 1 := by
  rw [List.countP_append, List.countP_cons, countP_all_false hA, countP_all_false hB]
  simp [hx]

theorem mem_split {p : Event → Bool} {A B : List Event} {x e : Event}
    (hA : ∀ e ∈ A, p e = false) (hB : ∀ e ∈ B, p e = false)
    (he : e ∈ A ++ x :: B) (hp : p e = true) : e = x := by
  rcases List.mem_append.1 he with h | h
  · rw [hA e h] at hp; cases hp
  · rcases List.mem_cons.1 h with h | h
    · exact h
    · rw [hB e h] at hp; cases hp

theorem false_snoc {p : Event → Bool} {A : List Event} {x : Event}
    (hA : ∀ e ∈ A, p e = false) (hx : p x = false) : ∀ e ∈ A ++ [x], p e = false := by
  intro e he
  rcases List.mem_append.1 he with h | h
  · exact hA e h
  · rw [List.mem_singleton.1 h]; exact hx

theorem false_cons {p : Event → Bool} {B : List Event} {x : Event}
    (hx : p x = false) (hB : ∀ e ∈ B, p e = false) : ∀ e ∈ x :: B, p e = false := by
  intro e he
  rcases List.mem_cons.1 he with h | h
  · rw [h]; exact hx
  · exact hB e h

end aiContext

/-- C18: in every `load` call each tier is attempted at most once; the stream based reader
is called exactly once exactly when the call passes the fast path and empty path checks;
the direct path reader is called exactly once exactly when the stream based call of this
`load` raised, and then only after the stream created for the first tier was deleted (the
session owns no stream afterwards); the first success gives the archive. After a `load`
that returned true through the first tier the session owns exactly the one stream handed
to the reader, after one through the second tier it owns none. -/
theorem load_tiers {Config TS : Type} (plat : Platform) (rd : ArchiveReaders)
    (mk : IArchive → Nat → TS) (in_path : Option String) (ctx : aiContext Config TS) :
    ((ctx.load plat rd mk in_path).trace.countP Event.isReadOgawa ≤ 1
        ∧ (ctx.load plat rd mk in_path).trace.countP Event.isReadHDF5 ≤ 1)
      ∧ ((ctx.load plat rd mk in_path).trace.countP Event.isReadOgawa = 1 ↔
          ∃ p, in_path = some p ∧ p ≠ ""
            ∧ ¬ (NormalizePath plat (some p) = ctx.m_path ∧ ctx.m_archive.isSome = true))
      ∧ ((ctx.load plat rd mk in_path).trace.countP Event.isReadHDF5 = 1 ↔
          ∃ ss q e, Event.readOgawa ss q ∈ (ctx.load plat rd mk in_path).trace
            ∧ rd.ogawa ss q = Except.error e)
      ∧ (∀ pre post q, (ctx.load plat rd mk in_path).trace = pre ++ Event.readHDF5 q :: post →
          ∃ s, pre = ctx.reset.2 ++ [Event.newStream s, Event.readOgawa [s] q,
                  Event.deleteStream s]
            ∧ (ctx.load plat rd mk in_path).ctx.m_streams = [])
      ∧ ((ctx.load plat rd mk in_path).out = Outcome.returned true →
          ∀ ss q, Event.readOgawa ss q ∈ (ctx.load plat rd mk in_path).trace →
            (∀ a, rd.ogawa ss q = Except.ok a →
              (ctx.load plat rd mk in_path).ctx.getArchive = some a
                ∧ (ctx.load plat rd mk in_path).ctx.m_streams = ss ∧ ss.length = 1)
            ∧ (∀ e, rd.ogawa ss q = Except.error e →
              (ctx.load plat rd mk in_path).ctx.getArchive = (rd.hdf5 q).toOption
                ∧ (ctx.load plat rd mk in_path).ctx.m_streams = [])) := by
  have hR := aiContext.reset_trace_no_open ctx
  have hRO := aiContext.quiet_of aiContext.isReadOgawa_open hR
  have hRH := aiContext.quiet_of aiContext.isReadHDF5_open hR
  rcases aiContext.load_trace_cases plat rd mk in_path ctx with
    ⟨hc, ht⟩ | ⟨p, hi, hp, hf, ht⟩ | ⟨p, a, M, hi, hp, hf, h1, hM, ht, hs, ha⟩
      | ⟨p, e, M, hi, hp, hf, h1, hM, ht, hs, ha⟩
  · rw [ht]
    refine ⟨by simp, ?_, by simp, ?_, ?_⟩
    · simp only [List.countP_nil, Nat.zero_ne_one, false_iff]
      rintro ⟨p, hi, hp, hf⟩
      rcases hc with hc | ⟨p2, hi2, hf2⟩
      · rw [hc] at hi; cases hi
      · rw [hi] at hi2; cases hi2; exact hf hf2
    · intro pre post q h
      simp at h
    · intro _ ss q h
      simp at h
  · rw [ht]
    have c1 := aiContext.countP_all_false hRO
    have c2 := aiContext.countP_all_false hRH
    refine ⟨by omega, ?_, ?_, ?_, ?_⟩
    · rw [c1]
      simp only [Nat.zero_ne_one, false_iff]
      rintro ⟨p2, hi2, hp2, _⟩
      rw [hi] at hi2; cases hi2; exact hp2 hp
    · rw [c2]
      simp only [Nat.zero_ne_one, false_iff]
      rintro ⟨ss, q, e, hm, _⟩
      have := hRO _ hm
      cases this
    · intro pre post q h
      have hm : Event.readHDF5 q ∈ ctx.reset.2 := by rw [h]; simp
      have := hRH _ hm
      cases this
    · intro _ ss q hm
      have := hRO _ hm
      cases this
  · -- the first tier succeeded
    have hMO := aiContext.quiet_of aiContext.isReadOgawa_open hM
    have hMH := aiContext.quiet_of aiContext.isReadHDF5_open hM
    have hAO := aiContext.false_snoc (x := Event.newStream
      (aiContext.newStream plat p (NormalizePath plat (some p)))) hRO rfl
    have hAH := aiContext.false_snoc (x := Event.newStream
      (aiContext.newStream plat p (NormalizePath plat (some p)))) hRH rfl
    have c1 : (ctx.load plat rd mk in_path).trace.countP Event.isReadOgawa = 1 := by
      rw [ht]; exact aiContext.countP_split hAO hMO rfl
    have c2 : (ctx.load plat rd mk in_path).trace.countP Event.isReadHDF5 = 0 := by
      rw [ht]
      apply aiContext.countP_all_false
      intro x hx
      rcases List.mem_append.1 hx with h | h
      · exact hAH x h
      · exact aiContext.false_cons rfl hMH x h
    have hmem : ∀ ss q, Event.readOgawa ss q ∈ (ctx.load plat rd mk in_path).trace →
        ss = [aiContext.newStream plat p (NormalizePath plat (some p))]
          ∧ q = NormalizePath plat (some p) := by
      intro ss q hm
      rw [ht] at hm
      have := aiContext.mem_split hAO hMO hm rfl
      simp only [Event.readOgawa.injEq] at this
      exact this
    refine ⟨by omega, ?_, ?_, ?_, ?_⟩
    · rw [c1]
      simp only [true_iff]
      exact ⟨p, hi, hp, hf⟩
    · rw [c2]
      simp only [Nat.zero_ne_one, false_iff]
      rintro ⟨ss, q, e, hm, he⟩
      obtain ⟨rfl, rfl⟩ := hmem ss q hm
      rw [h1] at he; cases he
    · intro pre post q h
      have hm : Event.readHDF5 q ∈ (ctx.load plat rd mk in_path).trace := by rw [h]; simp
      rw [ht] at hm
      rcases List.mem_append.1 hm with h2 | h2
      · have := hAH _ h2; cases this
      · have := aiContext.false_cons (p := Event.isReadHDF5)
          (x := Event.readOgawa [aiContext.newStream plat p (NormalizePath plat (some p))]
            (NormalizePath plat (some p))) rfl hMH _ h2
        cases this
    · intro _ ss q hm
      obtain ⟨rfl, rfl⟩ := hmem ss q hm
      refine ⟨?_, ?_⟩
      · intro a2 ha2
        rw [h1] at ha2; cases ha2
        exact ⟨ha, hs, rfl⟩
      · intro e he
        rw [h1] at he; cases he
  · -- the first tier raised
    have hMO := aiContext.quiet_of aiContext.isReadOgawa_open hM
    have hMH := aiContext.quiet_of aiContext.isReadHDF5_open hM
    have hAO := aiContext.false_snoc (x := Event.newStream
      (aiContext.newStream plat p (NormalizePath plat (some p)))) hRO rfl
    have hBO : ∀ x ∈ Event.deleteStream (aiContext.newStream plat p
        (NormalizePath plat (some p))) :: Event.readHDF5 (NormalizePath plat (some p)) :: M,
        x.isReadOgawa = false :=
      aiContext.false_cons rfl (aiContext.false_cons rfl hMO)
    have ht2 : (ctx.load plat rd mk in_path).trace =
        (ctx.reset.2 ++ [Event.newStream (aiContext.newStream plat p
            (NormalizePath plat (some p))),
          Event.readOgawa [aiContext.newStream plat p (NormalizePath plat (some p))]
            (NormalizePath plat (some p)),
          Event.deleteStream (aiContext.newStream plat p (NormalizePath plat (some p)))])
          ++ Event.readHDF5 (NormalizePath plat (some p)) :: M := by
      rw [ht]; simp
    have hAH : ∀ x ∈ ctx.reset.2 ++ [Event.newStream (aiContext.newStream plat p
            (NormalizePath plat (some p))),
          Event.readOgawa [aiContext.newStream plat p (NormalizePath plat (some p))]
            (NormalizePath plat (some p)),
          Event.deleteStream (aiContext.newStream plat p (NormalizePath plat (some p)))],
        x.isReadHDF5 = false := by
      intro x hx
      rcases List.mem_append.1 hx with h | h
      · exact hRH x h
      · simp only [List.mem_cons, List.mem_singleton, List.not_mem_nil, or_false] at h
        rcases h with rfl | rfl | rfl <;> rfl
    have c1 : (ctx.load plat rd mk in_path).trace.countP Event.isReadOgawa = 1 := by
      rw [ht]; exact aiContext.countP_split hAO hBO rfl
    have c2 : (ctx.load plat rd mk in_path).trace.countP Event.isReadHDF5 = 1 := by
      rw [ht2]; exact aiContext.countP_split hAH hMH rfl
    have hmem : ∀ ss q, Event.readOgawa ss q ∈ (ctx.load plat rd mk in_path).trace →
        ss = [aiContext.newStream plat p (NormalizePath plat (some p))]
          ∧ q = NormalizePath plat (some p) := by
      intro ss q hm
      rw [ht] at hm
      have := aiContext.mem_split hAO hBO hm rfl
      simp only [Event.readOgawa.injEq] at this
      exact this
    refine ⟨by omega, ?_, ?_, ?_, ?_⟩
    · rw [c1]
      simp only [true_iff]
      exact ⟨p, hi, hp, hf⟩
    · rw [c2]
      simp only [true_iff]
      refine ⟨_, _, e, ?_, h1⟩
      rw [ht]
      simp
    · intro pre post q h
      rw [ht2] at h
      obtain ⟨h3, h4⟩ := aiContext.unique_split (y := Event.readHDF5 q) hAH hMH rfl h
      simp only [Event.readHDF5.injEq] at h4
      exact ⟨_, by rw [h3, h4], hs⟩
    · intro _ ss q hm
      obtain ⟨rfl, rfl⟩ := hmem ss q hm
      refine ⟨?_, ?_⟩
      · intro a2 ha2
        rw [h1] at ha2; cases ha2
      · intro e2 _
        exact ⟨ha, hs⟩

/-- C19 (the code at the failing input): `load(nullptr)` on a newly constructed session
does not return; the conversion of the null pointer in `L(in_path)` raises before any
check, although `NormalizePath(nullptr)` is the empty string and `load("")` returns false. -/
theorem load_null_pointer_raises :
    NormalizePath Platform.linux none = ""
      ∧ (Example.fresh.load Platform.linux Example.failingReaders Example.createSampling
          none).out = Outcome.raised
      ∧ (Example.fresh.load Platform.linux Example.failingReaders Example.createSampling
          (some "")).out = Outcome.returned false
      ∧ (Example.loaded.load Platform.linux Example.failingReaders Example.createSampling
          none).out = Outcome.raised
      ∧ (Example.loaded.load Platform.linux Example.failingReaders Example.createSampling
          none).ctx.isEmpty = false := by
  decide

/-! ## The registry -/

namespace aiContextManager

variable {Config TS : Type}

theorem find_eq_none_of_keys {uid : Int} {l : List (Int × aiContext Config TS)}
    (h : ∀ e ∈ l, e.1 ≠ uid) : find uid l = none := by
  induction l with
  | nil => rfl
  | cons e rest ih =>
    obtain ⟨k, c⟩ := e
    have hk : k ≠ uid := h (k, c) (List.mem_cons_self _ _)
    simp only [find, if_neg hk]
    exact ih (fun e he => h e (List.mem_cons_of_mem _ he))

theorem keys_of_find_eq_none {uid : Int} {l : List (Int × aiContext Config TS)}
    (h : find uid l = none) : ∀ e ∈ l, e.1 ≠ uid := by
  induction l with
  | nil => intro e he; cases he
  | cons e rest ih =>
    obtain ⟨k, c⟩ := e
    by_cases hk : k = uid
    · simp [find, hk] at h
    · simp only [find, if_neg hk] at h
      intro e he
      rcases List.mem_cons.1 he with rfl | he
      · exact hk
      · exact ih h e he

theorem mem_of_find {uid : Int} {c : aiContext Config TS}
    {l : List (Int × aiContext Config TS)} (h : find uid l = some c) : (uid, c) ∈ l := by
  induction l with
  | nil => cases h
  | cons e rest ih =>
    obtain ⟨k, d⟩ := e
    by_cases hk : k = uid
    · simp only [find, if_pos hk, Option.some.injEq] at h
      rw [hk, h]
      exact List.mem_cons_self _ _
    · simp only [find, if_neg hk] at h
      exact List.mem_cons_of_mem _ (ih h)

theorem find_assign_self (uid : Int) (c : aiContext Config TS)
    (l : List (Int × aiContext Config TS)) : find uid (assign uid c l) = some c := by
  induction l with
  | nil => simp [assign, find]
  | cons e rest ih =>
    obtain ⟨k, d⟩ := e
    by_cases h1 : uid < k
    · simp [assign, h1, find]
    · by_cases h2 : uid = k
      · simp [assign, h2, find]
      · have h3 : ¬ k = uid := fun h => h2 h.symm
        simp [assign, h1, h2, find, h3, ih]

theorem find_assign_other {uid k : Int} (hk : k ≠ uid) (c : aiContext Config TS)
    (l : List (Int × aiContext Config TS)) : find k (assign uid c l) = find k l := by
  have hk2 : ¬ uid = k := fun h => hk h.symm
  induction l with
  | nil => simp [assign, find, hk2]
  | cons e rest ih =>
    obtain ⟨k2, d⟩ := e
    by_cases h1 : uid < k2
    · simp [assign, h1, find, hk2]
    · by_cases h2 : uid = k2
      · subst h2
        simp [assign, find, hk2]
      · simp only [assign, if_neg h1, if_neg h2, find, ih]

theorem assign_of_absent {uid : Int} (c : aiContext Config TS)
    {l : List (Int × aiContext Config TS)} (h : find uid l = none) :
    ∃ pre post, l = pre ++ post ∧ assign uid c l = pre ++ (uid, c) :: post := by
  induction l with
  | nil => exact ⟨[], [], rfl, rfl⟩
  | cons e rest ih =>
    obtain ⟨k, d⟩ := e
    have hk : k ≠ uid := keys_of_find_eq_none h (k, d) (List.mem_cons_self _ _)
    have hk2 : ¬ uid = k := fun h => hk h.symm
    simp only [find, if_neg hk] at h
    by_cases h1 : uid < k
    · exact ⟨[], (k, d) :: rest, rfl, by simp [assign, h1]⟩
    · obtain ⟨pre, post, h2, h3⟩ := ih h
      refine ⟨(k, d) :: pre, post, by rw [h2]; rfl, ?_⟩
      simp only [assign, if_neg h1, if_neg hk2, h3, List.cons_append]

theorem keys_assign {uid : Int} (c : aiContext Config TS)
    (l : List (Int × aiContext Config TS)) :
    ∀ e ∈ assign uid c l, e.1 = uid ∨ ∃ e2 ∈ l, e2.1 = e.1 := by
  induction l with
  | nil =>
    intro e he
    simp only [assign, List.mem_singleton] at he
    exact Or.inl (by rw [he])
  | cons x rest ih =>
    obtain ⟨k, d⟩ := x
    intro e he
    by_cases h1 : uid < k
    · simp only [assign, if_pos h1, List.mem_cons] at he
      rcases he with rfl | rfl | he
      · exact Or.inl rfl
      · exact Or.inr ⟨_, List.mem_cons_self _ _, rfl⟩
      · exact Or.inr ⟨e, List.mem_cons_of_mem _ he, rfl⟩
    · by_cases h2 : uid = k
      · simp only [assign, if_neg h1, if_pos h2, List.mem_cons] at he
        rcases he with rfl | he
        · exact Or.inl h2.symm
        · exact Or.inr ⟨e, List.mem_cons_of_mem _ he, rfl⟩
      · simp only [assign, if_neg h1, if_neg h2, List.mem_cons] at he
        rcases he with rfl | he
        · exact Or.inr ⟨_, List.mem_cons_self _ _, rfl⟩
        · rcases ih e he with h | ⟨e2, he2, h⟩
          · exact Or.inl h
          · exact Or.inr ⟨e2, List.mem_cons_of_mem _ he2, h⟩

theorem assign_pairwise (uid : Int) (c : aiContext Config TS)
    {l : List (Int × aiContext Config TS)} (h : l.Pairwise (fun a b => a.1 < b.1)) :
    (assign uid c l).Pairwise (fun a b => a.1 < b.1) := by
  induction l with
  | nil => simp [assign]
  | cons x rest ih =>
    obtain ⟨k, d⟩ := x
    rw [List.pairwise_cons] at h
    by_cases h1 : uid < k
    · simp only [assign, if_pos h1]
      refine List.pairwise_cons.2 ⟨?_, List.pairwise_cons.2 h⟩
      intro e he
      rcases List.mem_cons.1 he with rfl | he
      · exact h1
      · exact lt_trans h1 (h.1 e he)
    · by_cases h2 : uid = k
      · simp only [assign, if_neg h1, if_pos h2]
        exact List.pairwise_cons.2 h
      · simp only [assign, if_neg h1, if_neg h2]
        refine List.pairwise_cons.2 ⟨?_, ih h.2⟩
        intro e he
        rcases keys_assign c rest e he with h3 | ⟨e2, he2, h3⟩
        · show k < e.1
          rw [h3]; omega
        · show k < e.1
          rw [← h3]; exact h.1 e2 he2

theorem erase_sublist (uid : Int) (l : List (Int × aiContext Config TS)) :
    (erase uid l).Sublist l := by
  induction l with
  | nil => exact List.Sublist.refl _
  | cons x rest ih =>
    obtain ⟨k, d⟩ := x
    by_cases hk : k = uid
    · simp only [erase, if_pos hk]
      exact List.sublist_cons_self _ _
    · simp only [erase, if_neg hk]
      exact ih.cons₂ _

theorem find_erase_other {uid k : Int} (hk : k ≠ uid)
    (l : List (Int × aiContext Config TS)) : find k (erase uid l) = find k l := by
  induction l with
  | nil => rfl
  | cons x rest ih =>
    obtain ⟨k2, d⟩ := x
    by_cases h1 : k2 = uid
    · have h2 : ¬ k2 = k := fun h => hk (h.symm.trans h1)
      simp only [erase, if_pos h1, find, if_neg h2]
    · simp only [erase, if_neg h1, find, ih]

theorem find_erase_self (uid : Int) {l : List (Int × aiContext Config TS)}
    (h : l.Pairwise (fun a b => a.1 < b.1)) : find uid (erase uid l) = none := by
  induction l with
  | nil => rfl
  | cons x rest ih =>
    obtain ⟨k, d⟩ := x
    rw [List.pairwise_cons] at h
    by_cases hk : k = uid
    · simp only [erase, if_pos hk]
      apply find_eq_none_of_keys
      intro e he
      have := h.1 e he
      simp only at this
      omega
    · simp only [erase, if_neg hk, find]
      exact ih h.2

theorem erase_of_absent {uid : Int} {l : List (Int × aiContext Config TS)}
    (h : find uid l = none) : erase uid l = l := by
  induction l with
  | nil => rfl
  | cons x rest ih =>
    obtain ⟨k, d⟩ := x
    have hk : k ≠ uid := keys_of_find_eq_none h (k, d) (List.mem_cons_self _ _)
    simp only [find, if_neg hk] at h
    simp only [erase, if_neg hk, ih h]

theorem destroyLoop_eq_filter (path : String) (l : List (Int × aiContext Config TS)) :
    (destroyLoop path l).1 = l.filter (fun e => decide (e.2.getPath ≠ path)) := by
  induction l with
  | nil => rfl
  | cons x rest ih =>
    obtain ⟨k, c⟩ := x
    by_cases h : c.getPath = path
    · simp [destroyLoop, h, ih]
    · simp [destroyLoop, h, ih]

theorem onContext_keys (uid : Int) (f : aiContext Config TS → aiContext Config TS)
    (l : List (Int × aiContext Config TS)) :
    (onContext uid f l).map Prod.fst = l.map Prod.fst := by
  induction l with
  | nil => rfl
  | cons x rest ih =>
    obtain ⟨k, c⟩ := x
    by_cases hk : k = uid
    · simp [onContext, hk]
    · simp [onContext, hk, ih]

theorem mem_onContext {uid : Int} {f : aiContext Config TS → aiContext Config TS}
    {l : List (Int × aiContext Config TS)} {e : Int × aiContext Config TS}
    (he : e ∈ onContext uid f l) : e ∈ l ∨ ∃ c, (e.1, c) ∈ l ∧ e.2 = f c := by
  induction l with
  | nil => cases he
  | cons x rest ih =>
    obtain ⟨k, c⟩ := x
    by_cases hk : k = uid
    · simp only [onContext, if_pos hk, List.mem_cons] at he
      rcases he with rfl | he
      · exact Or.inr ⟨c, List.mem_cons_self _ _, rfl⟩
      · exact Or.inl (List.mem_cons_of_mem _ he)
    · simp only [onContext, if_neg hk, List.mem_cons] at he
      rcases he with rfl | he
      · exact Or.inl (List.mem_cons_self _ _)
      · rcases ih he with h | ⟨c2, h1, h2⟩
        · exact Or.inl (List.mem_cons_of_mem _ h)
        · exact Or.inr ⟨c2, List.mem_cons_of_mem _ h1, h2⟩

end aiContextManager

namespace aiContextManager

variable {Config TS : Type}

/-- A public call keeps the path of a session a fixed point of the normalization. -/
theorem canonical_apply (plat : Platform) (ctx : aiContext Config TS) (op : Op Config TS)
    (h : NormalizePath plat (some ctx.m_path) = ctx.m_path) :
    NormalizePath plat (some (op.apply plat ctx).m_path) = (op.apply plat ctx).m_path := by
  have hempty : NormalizePath plat (some "") = "" := (NormalizePath_eq_empty_iff plat "").2 rfl
  cases op with
  | load rd mk in_path =>
    simp only [Op.apply]
    rcases aiContext.load_path plat rd mk in_path ctx with hp | hp | hp <;> rw [hp]
    · exact h
    · exact hempty
    · exact NormalizePath_idem plat in_path
  | reset => exact hempty
  | updateSamples T SS sel upd time =>
    simp only [Op.apply, aiContext.updateSamples_frame]
    exact h
  | setConfig config => exact h
  | queueAsync task => exact h
  | waitAsync => exact h

theorem apply_good (plat : Platform) (config : Config) (reg : aiContextManager Config TS)
    (op : ManagerOp Config TS)
    (h : reg.WellFormed ∧ ∀ e ∈ reg.m_contexts,
      NormalizePath plat (some e.2.m_path) = e.2.m_path) :
    (op.apply plat config reg).WellFormed ∧ ∀ e ∈ (op.apply plat config reg).m_contexts,
      NormalizePath plat (some e.2.m_path) = e.2.m_path := by
  obtain ⟨hw, hc⟩ := h
  have hempty : NormalizePath plat (some "") = "" := (NormalizePath_eq_empty_iff plat "").2 rfl
  cases op with
  | getContext uid =>
    simp only [ManagerOp.apply, getContext]
    cases hf : find uid reg.m_contexts with
    | some c => exact ⟨hw, hc⟩
    | none =>
      refine ⟨assign_pairwise uid _ hw, ?_⟩
      obtain ⟨pre, post, h1, h2⟩ := assign_of_absent (aiContext.new config uid) hf
      intro e he
      simp only at he
      rw [h2] at he
      rcases List.mem_append.1 he with h3 | h3
      · exact hc e (by rw [h1]; exact List.mem_append_left _ h3)
      · rcases List.mem_cons.1 h3 with rfl | h3
        · exact hempty
        · exact hc e (by rw [h1]; exact List.mem_append_right _ h3)
  | destroyContext uid =>
    simp only [ManagerOp.apply, destroyContext]
    cases hf : find uid reg.m_contexts with
    | none => exact ⟨hw, hc⟩
    | some c =>
      exact ⟨List.Pairwise.sublist (erase_sublist uid _) hw,
        fun e he => hc e ((erase_sublist uid _).subset he)⟩
  | destroyContextsWithPath asset_path =>
    simp only [ManagerOp.apply, destroyContextsWithPath, destroyLoop_eq_filter]
    exact ⟨List.Pairwise.sublist (List.filter_sublist _) hw,
      fun e he => hc e (List.mem_of_mem_filter he)⟩
  | onContext uid op =>
    simp only [ManagerOp.apply]
    constructor
    · have hk := onContext_keys uid (fun c => op.apply plat c) reg.m_contexts
      have h1 : (reg.m_contexts.map Prod.fst).Pairwise (· < ·) := List.pairwise_map.2 hw
      rw [← hk] at h1
      exact List.pairwise_map.1 h1
    · intro e he
      rcases mem_onContext he with h1 | ⟨c, h1, h2⟩
      · exact hc e h1
      · rw [h2]
        exact canonical_apply plat c op (hc _ h1)

theorem runManager_good (plat : Platform) (config : Config)
    (ops : List (ManagerOp Config TS)) (reg : aiContextManager Config TS)
    (h : reg.WellFormed ∧ ∀ e ∈ reg.m_contexts,
      NormalizePath plat (some e.2.m_path) = e.2.m_path) :
    (runManager plat config ops reg).WellFormed
      ∧ ∀ e ∈ (runManager plat config ops reg).m_contexts,
        NormalizePath plat (some e.2.m_path) = e.2.m_path := by
  induction ops generalizing reg with
  | nil => exact h
  | cons op ops ih => exact ih _ (apply_good plat config reg op h)

end aiContextManager

/-- C13: `getContext(id)` always yields the session registered under `id` afterwards; a
second `getContext(id)` yields the same session and leaves the registry as it is; when
`id` was registered the registry is unchanged, and when it was absent exactly one entry,
a newly constructed session under `id`, is put between the unchanged other entries.
The keys stay strictly ascending. -/
theorem getContext_spec {Config TS : Type} (config : Config) (uid : Int)
    (reg : aiContextManager Config TS) :
    aiContextManager.find uid (reg.getContext config uid).1.m_contexts
        = some (reg.getContext config uid).2
      ∧ (reg.getContext config uid).1.getContext config uid = reg.getContext config uid
      ∧ (∀ c, aiContextManager.find uid reg.m_contexts = some c →
          reg.getContext config uid = (reg, c))
      ∧ (aiContextManager.find uid reg.m_contexts = none →
          (reg.getContext config uid).2 = aiContext.new config uid
            ∧ ∃ pre post, reg.m_contexts = pre ++ post
              ∧ (reg.getContext config uid).1.m_contexts
                  = pre ++ (uid, aiContext.new config uid) :: post)
      ∧ (∀ k, k ≠ uid → aiContextManager.find k (reg.getContext config uid).1.m_contexts
          = aiContextManager.find k reg.m_contexts)
      ∧ (reg.WellFormed → (reg.getContext config uid).1.WellFormed) := by
  cases hf : aiContextManager.find uid reg.m_contexts with
  | some c =>
    have hg : reg.getContext config uid = (reg, c) := by
      simp [aiContextManager.getContext, hf]
    rw [hg]
    refine ⟨hf, hg, ?_, ?_, fun _ _ => rfl, fun h => h⟩
    · intro c2 hc2
      cases hc2
      rfl
    · intro h
      cases h
  | none =>
    have hg : reg.getContext config uid
        = (⟨aiContextManager.assign uid (aiContext.new config uid) reg.m_contexts⟩,
            aiContext.new config uid) := by
      simp [aiContextManager.getContext, hf]
    have hs := aiContextManager.find_assign_self uid (aiContext.new config uid) reg.m_contexts
    rw [hg]
    refine ⟨hs, ?_, ?_, ?_, ?_, ?_⟩
    · simp [aiContextManager.getContext, hs]
    · intro c hc
      cases hc
    · intro _
      exact ⟨rfl, aiContextManager.assign_of_absent _ hf⟩
    · intro k hk
      exact aiContextManager.find_assign_other hk _ _
    · intro h
      exact aiContextManager.assign_pairwise uid _ h

/-- Witness for C13: asking the example registry for id 3 appends a new session. -/
theorem getContext_spec_witness :
    aiContextManager.find 3 Example.registry.m_contexts = none
      ∧ (Example.registry.getContext () 3).2 = aiContext.new () 3 :=
  ⟨rfl, ((getContext_spec () 3 Example.registry).2.2.2.1 rfl).1⟩

/-- C14: in a registry (keys strictly ascending, as in every `std::map`),
`destroyContext(id)` followed by `getContext(id)` yields a newly constructed session with
`getUid() = id` in the Empty state with no pending task; `destroyContext(id)` leaves every
other entry as it is, leaves no entry for `id`, and changes nothing when `id` is absent. -/
theorem destroyContext_spec {Config TS : Type} (config : Config) (uid : Int)
    (reg : aiContextManager Config TS) (h : reg.WellFormed) :
    ((reg.destroyContext uid).1.getContext config uid).2 = aiContext.new config uid
      ∧ ((reg.destroyContext uid).1.getContext config uid).2.getUid = uid
      ∧ ((reg.destroyContext uid).1.getContext config uid).2.isEmpty = true
      ∧ ((reg.destroyContext uid).1.getContext config uid).2.m_async_tasks = []
      ∧ aiContextManager.find uid (reg.destroyContext uid).1.m_contexts = none
      ∧ (∀ k, k ≠ uid → aiContextManager.find k (reg.destroyContext uid).1.m_contexts
          = aiContextManager.find k reg.m_contexts)
      ∧ (reg.destroyContext uid).1.m_contexts.Sublist reg.m_contexts
      ∧ (aiContextManager.find uid reg.m_contexts = none → reg.destroyContext uid = (reg, []))
      ∧ (∀ c, aiContextManager.find uid reg.m_contexts = some c →
          (reg.destroyContext uid).2 = c.reset.2) := by
  have hnone : aiContextManager.find uid (reg.destroyContext uid).1.m_contexts = none := by
    cases hf : aiContextManager.find uid reg.m_contexts with
    | none => simp [aiContextManager.destroyContext, hf]
    | some c =>
      simp only [aiContextManager.destroyContext, hf]
      exact aiContextManager.find_erase_self uid h
  have hnew : ((reg.destroyContext uid).1.getContext config uid).2
      = aiContext.new config uid := by
    simp [aiContextManager.getContext, hnone]
  refine ⟨hnew, ?_, ?_, ?_, hnone, ?_, ?_, ?_, ?_⟩
  · rw [hnew]; rfl
  · rw [hnew]; exact aiContext.new_isEmpty config uid
  · rw [hnew]; rfl
  · intro k hk
    cases hf : aiContextManager.find uid reg.m_contexts with
    | none => simp [aiContextManager.destroyContext, hf]
    | some c =>
      simp only [aiContextManager.destroyContext, hf]
      exact aiContextManager.find_erase_other hk _
  · cases hf : aiContextManager.find uid reg.m_contexts with
    | none => simp [aiContextManager.destroyContext, hf]
    | some c =>
      simp only [aiContextManager.destroyContext, hf]
      exact aiContextManager.erase_sublist uid _
  · intro hf
    simp [aiContextManager.destroyContext, hf]
  · intro c hf
    simp [aiContextManager.destroyContext, hf, aiContext.destroy]

/-- Witness for C14: the loaded session under id 1 is destroyed; asking for id 1 again
gives a newly constructed session. -/
theorem destroyContext_spec_witness :
    Example.registry.WellFormed
      ∧ ((Example.registry.destroyContext 1).1.getContext () 1).2 = aiContext.new () 1 :=
  have hw : Example.registry.WellFormed := by
    simp [aiContextManager.WellFormed, Example.registry]
  ⟨hw, (destroyContext_spec () 1 Example.registry hw).1⟩

/-- C15: after `destroyContextsWithPath(p)` (any path, also the empty one and the null
pointer) the registry holds exactly the entries registered before whose session path
differs from `NormalizePath(p)`, each under its id, unchanged and in the same order; the
entries whose session path equals `NormalizePath(p)` are gone and nothing is added. -/
theorem destroyContextsWithPath_spec {Config TS : Type} (plat : Platform)
    (asset_path : Option String) (reg : aiContextManager Config TS) :
    (reg.destroyContextsWithPath plat asset_path).1.m_contexts
        = reg.m_contexts.filter
            (fun e => decide (e.2.getPath ≠ NormalizePath plat asset_path))
      ∧ (∀ e, e ∈ (reg.destroyContextsWithPath plat asset_path).1.m_contexts ↔
          (e ∈ reg.m_contexts ∧ e.2.getPath ≠ NormalizePath plat asset_path))
      ∧ (reg.destroyContextsWithPath plat asset_path).1.m_contexts.Sublist reg.m_contexts := by
  have h : (reg.destroyContextsWithPath plat asset_path).1.m_contexts
      = reg.m_contexts.filter
          (fun e => decide (e.2.getPath ≠ NormalizePath plat asset_path)) := by
    simp only [aiContextManager.destroyContextsWithPath,
      aiContextManager.destroyLoop_eq_filter]
  refine ⟨h, ?_, ?_⟩
  · intro e
    rw [h, List.mem_filter]
    simp
  · rw [h]
    exact List.filter_sublist _

/-- C20: `NormalizePath` is idempotent in every variant (also on the null pointer), and
so in every registry reached from the empty one by registry calls and public session
calls, `destroyContextsWithPath(c.getPath())` removes each registered session `c`: no
entry for its id and no session with its path remains. -/
theorem NormalizePath_idempotent_destroys {Config TS : Type} (plat : Platform) :
    (∀ in_path : Option String,
        NormalizePath plat (some (NormalizePath plat in_path)) = NormalizePath plat in_path)
      ∧ ∀ (config : Config) (ops : List (ManagerOp Config TS)) (k : Int)
          (c : aiContext Config TS),
          (k, c) ∈ (runManager plat config ops ⟨[]⟩).m_contexts →
            aiContextManager.find k ((runManager plat config ops ⟨[]⟩).destroyContextsWithPath
                plat (some c.getPath)).1.m_contexts = none
              ∧ (k, c) ∉ ((runManager plat config ops ⟨[]⟩).destroyContextsWithPath
                  plat (some c.getPath)).1.m_contexts
              ∧ ∀ e ∈ ((runManager plat config ops ⟨[]⟩).destroyContextsWithPath
                  plat (some c.getPath)).1.m_contexts, e.2.getPath ≠ c.getPath := by
  refine ⟨NormalizePath_idem plat, ?_⟩
  intro config ops k c hm
  obtain ⟨hw, hc⟩ := aiContextManager.runManager_good plat config ops
    (⟨[]⟩ : aiContextManager Config TS)
    ⟨List.Pairwise.nil, fun e he => by cases he⟩
  have hcan : NormalizePath plat (some c.getPath) = c.getPath := hc (k, c) hm
  have hf : ((runManager plat config ops ⟨[]⟩).destroyContextsWithPath
      plat (some c.getPath)).1.m_contexts
      = (runManager plat config ops (⟨[]⟩ : aiContextManager Config TS)).m_contexts.filter
          (fun e => decide (e.2.getPath ≠ c.getPath)) := by
    simp only [aiContextManager.destroyContextsWithPath,
      aiContextManager.destroyLoop_eq_filter, hcan]
  rw [hf]
  have hall : ∀ e ∈ (runManager plat config ops
      (⟨[]⟩ : aiContextManager Config TS)).m_contexts.filter
        (fun e => decide (e.2.getPath ≠ c.getPath)), e.2.getPath ≠ c.getPath := by
    intro e he
    simpa using (List.mem_filter.1 he).2
  refine ⟨?_, fun h => hall _ h rfl, hall⟩
  apply aiContextManager.find_eq_none_of_keys
  intro e he hk
  have he1 := List.mem_of_mem_filter he
  have he2 := hall e he
  -- the keys are unique, so the entry with key `k` is `(k, c)` itself
  have huniq : ∀ {l : List (Int × aiContext Config TS)},
      l.Pairwise (fun a b => a.1 < b.1) → ∀ a ∈ l, ∀ b ∈ l, a.1 = b.1 → a = b := by
    intro l hl
    induction l with
    | nil => intro a ha; cases ha
    | cons x rest ih =>
      rw [List.pairwise_cons] at hl
      intro a ha b hb hab
      rcases List.mem_cons.1 ha with h1 | h1
      · rcases List.mem_cons.1 hb with h2 | h2
        · rw [h1, h2]
        · have := hl.1 b h2
          rw [h1] at hab
          omega
      · rcases List.mem_cons.1 hb with h2 | h2
        · have := hl.1 a h1
          rw [h2] at hab
          omega
        · exact ih hl.2 a h1 b h2 hab
  have := huniq hw e he1 (k, c) hm hk
  rw [this] at he2
  exact he2 rfl

/-- Witness for C20: a session is registered under id 1 and loads a scene on Windows;
`destroyContextsWithPath` with its own path leaves no entry for id 1. -/
theorem NormalizePath_idempotent_destroys_witness :
    Example.registered.getPath = "c:/scenes/a.abc"
      ∧ aiContextManager.find 1
          ((runManager Platform.windows () Example.managerOps ⟨[]⟩).destroyContextsWithPath
            Platform.windows (some Example.registered.getPath)).1.m_contexts = none :=
  have hm : (1, Example.registered)
      ∈ (runManager Platform.windows () Example.managerOps ⟨[]⟩).m_contexts :=
    List.mem_singleton.2 rfl
  ⟨by decide,
   ((@NormalizePath_idempotent_destroys Unit Nat Platform.windows).2 () Example.managerOps 1
      Example.registered hm).1⟩
